import Mathlib

/-!
Verification of the step-recording and playback model of the sorting-algorithm
visualizer: the three sort engines (quick sort, merge sort, selection sort)
instrumented with step recording, and the shared playback controller.

Arrays are modelled as `List Int`; in-place mutation becomes explicit state
passing; each engine's `sort_algorithm` returns the recorded step sequence
together with the final state of its working array.
-/

set_option maxHeartbeats 1000000

/-- Reading `arr[i]` (all source reads are in bounds; out of range defaults to 0). -/
def ga (a : List Int) (i : Nat) : Int := a.getD i 0

/-- Python's simultaneous assignment `arr[i], arr[j] = arr[j], arr[i]`. -/
def swapL (a : List Int) (i j : Nat) : List Int := (a.set i (ga a j)).set j (ga a i)

/-- The inclusive sub-range `arr[lo..hi]` of the working array. -/
def sliceL (a : List Int) (lo hi : Nat) : List Int := (a.drop lo).take (hi + 1 - lo)

/-- Python's `repr` of a list of ints, as used in f-string interpolation. -/
def pyListRepr (l : List Int) : String :=
  "[" ++ String.intercalate ", " (l.map toString) ++ "]"

theorem ga_eq_getElem (a : List Int) (i : Nat) (h : i < a.length) : ga a i = a[i] := by
  simp [ga, List.getD_eq_getElem?_getD, List.getElem?_eq_getElem h]

theorem length_swapL (a : List Int) (i j : Nat) : (swapL a i j).length = a.length := by
  simp [swapL]

theorem ga_set (a : List Int) (i k : Nat) (v : Int) :
    ga (a.set i v) k = if i = k ∧ i < a.length then v else ga a k := by
  simp only [ga, List.getD_eq_getElem?_getD, List.getElem?_set]
  by_cases h1 : i = k
  · subst h1
    by_cases h2 : i < a.length
    · simp [h2]
    · have hn : a[i]? = none := by
        rw [List.getElem?_eq_none_iff]; omega
      simp [h2, hn]
  · have hne : ¬ (i = k ∧ i < a.length) := fun hc => h1 hc.1
    simp [h1, hne]

theorem ga_swapL (a : List Int) (i j k : Nat) (hi : i < a.length) (hj : j < a.length) :
    ga (swapL a i j) k = if j = k then ga a i else if i = k then ga a j else ga a k := by
  simp only [swapL, ga_set, List.length_set, hi, hj, and_true]

theorem swapL_self (a : List Int) (i : Nat) : swapL a i i = a := by
  by_cases hi : i < a.length
  · apply List.ext_getElem
    · simp [length_swapL]
    · intro k h1 h2
      have e := ga_swapL a i i k hi hi
      have g1 : ga (swapL a i i) k = (swapL a i i)[k] :=
        ga_eq_getElem _ k (by simpa [length_swapL] using h1)
      have g2 : ga a k = a[k] := ga_eq_getElem a k h2
      rw [← g1, ← g2, e]
      by_cases h : i = k <;> simp [h]
  · simp [swapL, List.set_eq_of_length_le (le_of_not_lt hi)]

theorem cons_set_perm (x v : Int) (xs : List Int) (j : Nat) (hj : j < xs.length) :
    List.Perm (xs.getD j v :: xs.set j x) (x :: xs) := by
  induction xs generalizing j with
  | nil => simp at hj
  | cons y ys ih =>
    cases j with
    | zero => simpa using List.Perm.swap x y ys
    | succ n =>
      have hn : n < ys.length := by simpa using hj
      have e1 : (y :: ys).getD (n+1) v :: (y :: ys).set (n+1) x
          = ys.getD n v :: y :: ys.set n x := by simp
      rw [e1]
      have p1 : List.Perm (ys.getD n v :: y :: ys.set n x)
          (y :: (ys.getD n v :: ys.set n x)) := List.Perm.swap _ _ _
      have p2 : List.Perm (y :: (ys.getD n v :: ys.set n x)) (y :: (x :: ys)) :=
        List.Perm.cons _ (ih n hn)
      have p3 : List.Perm (y :: x :: ys) (x :: y :: ys) := List.Perm.swap _ _ _
      exact (p1.trans p2).trans p3

theorem swapL_cons_succ (x : Int) (xs : List Int) (i j : Nat) :
    swapL (x :: xs) (i + 1) (j + 1) = x :: swapL xs i j := by
  simp [swapL, ga]

theorem swapL_perm (a : List Int) (i j : Nat) (hi : i < a.length) (hj : j < a.length) :
    List.Perm (swapL a i j) a := by
  induction a generalizing i j with
  | nil => simp at hi
  | cons x xs ih =>
    match i, j with
    | 0, 0 => rw [swapL_self]
    | 0, j + 1 =>
      have hj' : j < xs.length := by simpa using hj
      have : swapL (x :: xs) 0 (j + 1) = xs.getD j 0 :: xs.set j x := by
        simp [swapL, ga]
      rw [this]
      exact cons_set_perm x 0 xs j hj'
    | i + 1, 0 =>
      have hi' : i < xs.length := by simpa using hi
      have : swapL (x :: xs) (i + 1) 0 = xs.getD i 0 :: xs.set i x := by
        simp [swapL, ga]
      rw [this]
      exact cons_set_perm x 0 xs i hi'
    | i + 1, j + 1 =>
      rw [swapL_cons_succ]
      exact List.Perm.cons x (ih i j (by simpa using hi) (by simpa using hj))

theorem length_sliceL (a : List Int) (lo hi : Nat) :
    (sliceL a lo hi).length = min (hi + 1 - lo) (a.length - lo) := by
  simp [sliceL]

theorem getElem_sliceL (a : List Int) (lo hi t : Nat) (h : t < (sliceL a lo hi).length) :
    (sliceL a lo hi)[t] = ga a (lo + t) := by
  have h1 : t < hi + 1 - lo := by
    have := length_sliceL a lo hi; omega
  have h2 : lo + t < a.length := by
    have := length_sliceL a lo hi; omega
  rw [ga_eq_getElem _ _ h2]
  simp only [sliceL, List.getElem_take, List.getElem_drop]

theorem ga_mem_sliceL (a : List Int) (lo hi m : Nat) (h1 : lo ≤ m) (h2 : m ≤ hi)
    (h3 : m < a.length) : ga a m ∈ sliceL a lo hi := by
  have hlen : m - lo < (sliceL a lo hi).length := by
    rw [length_sliceL]; omega
  have := getElem_sliceL a lo hi (m - lo) hlen
  have hm : lo + (m - lo) = m := by omega
  rw [hm] at this
  rw [← this]
  exact List.getElem_mem hlen

theorem mem_sliceL_iff (a : List Int) (lo hi : Nat) (x : Int) (hhi : hi < a.length) :
    x ∈ sliceL a lo hi ↔ ∃ m, lo ≤ m ∧ m ≤ hi ∧ m < a.length ∧ x = ga a m := by
  constructor
  · intro hx
    obtain ⟨t, ht, rfl⟩ := List.getElem_of_mem hx
    refine ⟨lo + t, by omega, ?_, ?_, (getElem_sliceL a lo hi t ht)⟩
    · have := length_sliceL a lo hi; omega
    · have := length_sliceL a lo hi; omega
  · rintro ⟨m, h1, h2, h3, rfl⟩
    exact ga_mem_sliceL a lo hi m h1 h2 h3

theorem sliceL_append_drop (a : List Int) (lo hi : Nat) (h : lo ≤ hi + 1) :
    a.take lo ++ (sliceL a lo hi ++ a.drop (hi + 1)) = a := by
  have hd : a.drop (hi + 1) = (a.drop lo).drop (hi + 1 - lo) := by
    rw [List.drop_drop]; congr 1; omega
  rw [hd, sliceL, List.take_append_drop, List.take_append_drop]

theorem take_eq_of_ga (a b : List Int) (n : Nat) (hlen : a.length = b.length)
    (h : ∀ m, m < n → ga a m = ga b m) : a.take n = b.take n := by
  apply List.ext_getElem
  · simp [hlen]
  · intro m h1 h2
    have hma : m < a.length := by simp at h1; omega
    have hmb : m < b.length := by simp at h2; omega
    have hmn : m < n := by simp at h1; omega
    have he := h m hmn
    rw [ga_eq_getElem a m hma, ga_eq_getElem b m hmb] at he
    simpa [List.getElem_take] using he

theorem drop_eq_of_ga (a b : List Int) (n : Nat) (hlen : a.length = b.length)
    (h : ∀ m, n ≤ m → ga a m = ga b m) : a.drop n = b.drop n := by
  apply List.ext_getElem
  · simp [hlen]
  · intro m h1 h2
    have hma : n + m < a.length := by simp at h1; omega
    have hmb : n + m < b.length := by simp at h2; omega
    have he := h (n + m) (by omega)
    rw [ga_eq_getElem a _ hma, ga_eq_getElem b _ hmb] at he
    simpa [List.getElem_drop] using he

theorem perm_sliceL_of (a b : List Int) (lo hi : Nat) (hlen : a.length = b.length)
    (hperm : List.Perm a b) (hout : ∀ m, m < lo ∨ hi < m → ga a m = ga b m)
    (hlohi : lo ≤ hi + 1) :
    List.Perm (sliceL a lo hi) (sliceL b lo hi) := by
  rw [List.perm_iff_count]
  intro x
  have h1 := sliceL_append_drop a lo hi hlohi
  have h2 := sliceL_append_drop b lo hi hlohi
  have ht : a.take lo = b.take lo := take_eq_of_ga a b lo hlen (fun m hm => hout m (Or.inl hm))
  have hd : a.drop (hi + 1) = b.drop (hi + 1) :=
    drop_eq_of_ga a b (hi + 1) hlen (fun m hm => hout m (Or.inr (by omega)))
  have hc := hperm.count_eq x
  rw [← h1, ← h2] at hc
  simp only [List.count_append, ht, hd] at hc
  omega

theorem sorted_sliceL_of (a : List Int) (lo hi : Nat)
    (h : ∀ p q, lo ≤ p → p ≤ q → q ≤ hi → ga a p ≤ ga a q) :
    List.Sorted (· ≤ ·) (sliceL a lo hi) := by
  rw [List.Sorted, List.pairwise_iff_getElem]
  intro i j hilen hjlen hij
  rw [getElem_sliceL a lo hi i hilen, getElem_sliceL a lo hi j hjlen]
  have hl := length_sliceL a lo hi
  exact h (lo + i) (lo + j) (by omega) (by omega) (by omega)

theorem sorted_of_pointwise (a : List Int)
    (h : ∀ p q, p ≤ q → q < a.length → ga a p ≤ ga a q) : List.Sorted (· ≤ ·) a := by
  rw [List.Sorted, List.pairwise_iff_getElem]
  intro i j hi hj hij
  have hle := h i j (by omega) hj
  rwa [ga_eq_getElem a i (by omega), ga_eq_getElem a j hj] at hle

/-- Functional merge with the source's tie-break (`<=` prefers the left element),
comparing through a key; proof artifact used to characterize the imperative
in-place merge (`key = id`) and its lift to position-tagged elements. -/
def mergeK {α : Type} (key : α → Int) : List α → List α → List α
  | [], ys => ys
  | x :: xs, [] => x :: xs
  | x :: xs, y :: ys =>
    if key x ≤ key y then x :: mergeK key xs (y :: ys)
    else y :: mergeK key (x :: xs) ys
termination_by xs ys => xs.length + ys.length

/-- Functional top-down merge sort splitting at the midpoint used by the source
(`mid = (left+right)//2`, so the left half holds `⌈n/2⌉` elements). -/
def msortK {α : Type} (key : α → Int) (l : List α) : List α :=
  if h : 2 ≤ l.length then
    mergeK key (msortK key (l.take ((l.length + 1) / 2)))
               (msortK key (l.drop ((l.length + 1) / 2)))
  else l
termination_by l.length
decreasing_by
  · simp only [List.length_take]; omega
  · simp only [List.length_drop]; omega

theorem mergeK_nil_right {α : Type} (key : α → Int) (xs : List α) :
    mergeK key xs [] = xs := by
  cases xs <;> rw [mergeK]

theorem mergeK_perm {α : Type} (key : α → Int) (xs ys : List α) :
    List.Perm (mergeK key xs ys) (xs ++ ys) := by
  induction xs generalizing ys with
  | nil => rw [mergeK]; simp
  | cons x xs ihx =>
    induction ys with
    | nil => rw [mergeK_nil_right]; simp
    | cons y ys ihy =>
      rw [mergeK]
      by_cases h : key x ≤ key y
      · rw [if_pos h]
        exact List.Perm.cons x (ihx (y :: ys))
      · rw [if_neg h]
        refine (List.Perm.cons y ihy).trans ?_
        exact List.perm_middle.symm

theorem mergeK_length {α : Type} (key : α → Int) (xs ys : List α) :
    (mergeK key xs ys).length = xs.length + ys.length := by
  have := (mergeK_perm key xs ys).length_eq
  simpa using this

theorem mem_mergeK {α : Type} (key : α → Int) (xs ys : List α) (z : α) :
    z ∈ mergeK key xs ys ↔ z ∈ xs ∨ z ∈ ys := by
  rw [(mergeK_perm key xs ys).mem_iff, List.mem_append]

/-- Sortedness of a list with respect to a key. -/
def KSorted {α : Type} (key : α → Int) (l : List α) : Prop :=
  l.Pairwise (fun p q => key p ≤ key q)

theorem mergeK_sorted {α : Type} (key : α → Int) (xs ys : List α)
    (hx : KSorted key xs) (hy : KSorted key ys) : KSorted key (mergeK key xs ys) := by
  induction xs generalizing ys with
  | nil => rw [mergeK]; exact hy
  | cons x xs ihx =>
    induction ys with
    | nil => rw [mergeK_nil_right]; exact hx
    | cons y ys ihy =>
      rw [mergeK]
      rcases List.pairwise_cons.mp hx with ⟨hxhead, hxtail⟩
      rcases List.pairwise_cons.mp hy with ⟨hyhead, hytail⟩
      by_cases h : key x ≤ key y
      · rw [if_pos h]
        rw [KSorted, List.pairwise_cons]
        constructor
        · intro z hz
          rcases (mem_mergeK key xs (y :: ys) z).mp hz with hz | hz
          · exact hxhead z hz
          · rcases List.mem_cons.mp hz with rfl | hz
            · exact h
            · exact le_trans h (hyhead z hz)
        · exact ihx (y :: ys) hxtail hy
      · rw [if_neg h]
        rw [KSorted, List.pairwise_cons]
        constructor
        · intro z hz
          rcases (mem_mergeK key (x :: xs) ys z).mp hz with hz | hz
          · rcases List.mem_cons.mp hz with rfl | hz
            · omega
            · have := hxhead z hz; omega
          · exact hyhead z hz
        · exact ihy hytail
  
theorem msortK_perm_aux {α : Type} (key : α → Int) :
    ∀ (n : Nat) (l : List α), l.length ≤ n → List.Perm (msortK key l) l := by
  intro n
  induction n with
  | zero =>
    intro l hl
    rw [msortK, dif_neg (by omega)]
  | succ n ih =>
    intro l hl
    rw [msortK]
    by_cases h : 2 ≤ l.length
    · rw [dif_pos h]
      have p1 := ih (l.take ((l.length + 1) / 2)) (by simp only [List.length_take]; omega)
      have p2 := ih (l.drop ((l.length + 1) / 2)) (by simp only [List.length_drop]; omega)
      refine (mergeK_perm key _ _).trans ?_
      refine (p1.append p2).trans ?_
      rw [List.take_append_drop]
    · rw [dif_neg h]

theorem msortK_perm {α : Type} (key : α → Int) (l : List α) :
    List.Perm (msortK key l) l :=
  msortK_perm_aux key l.length l le_rfl

theorem msortK_length {α : Type} (key : α → Int) (l : List α) :
    (msortK key l).length = l.length := (msortK_perm key l).length_eq

theorem msortK_sorted_aux {α : Type} (key : α → Int) :
    ∀ (n : Nat) (l : List α), l.length ≤ n → KSorted key (msortK key l) := by
  intro n
  induction n with
  | zero =>
    intro l hl
    rw [msortK, dif_neg (by omega)]
    have : l = [] := List.eq_nil_of_length_eq_zero (by omega)
    subst this
    exact List.Pairwise.nil
  | succ n ih =>
    intro l hl
    rw [msortK]
    by_cases h : 2 ≤ l.length
    · rw [dif_pos h]
      have p1 := ih (l.take ((l.length + 1) / 2)) (by simp only [List.length_take]; omega)
      have p2 := ih (l.drop ((l.length + 1) / 2)) (by simp only [List.length_drop]; omega)
      exact mergeK_sorted key _ _ p1 p2
    · rw [dif_neg h]
      rw [KSorted]
      match l, h with
      | [], _ => exact List.Pairwise.nil
      | [a], _ => exact List.pairwise_singleton _ a
      | a :: b :: t, h => simp at h

theorem msortK_sorted {α : Type} (key : α → Int) (l : List α) :
    KSorted key (msortK key l) :=
  msortK_sorted_aux key l.length l le_rfl

/-- Stability witness: pairs are (original position, value); equal values keep
increasing positions. -/
def StableTags (l : List (Nat × Int)) : Prop :=
  l.Pairwise (fun p q => p.2 = q.2 → p.1 < q.1)

theorem mergeK_stable (as : List (Nat × Int)) :
    ∀ (bs : List (Nat × Int)), KSorted Prod.snd as → StableTags as → StableTags bs →
    (∀ p ∈ as, ∀ q ∈ bs, p.1 < q.1) →
    StableTags (mergeK Prod.snd as bs) := by
  induction as with
  | nil =>
    intro bs _ _ hb _
    rw [mergeK]
    exact hb
  | cons x xs ihx =>
    intro bs
    induction bs with
    | nil =>
      intro _ ha _ _
      rw [mergeK_nil_right]
      exact ha
    | cons y ys ihy =>
      intro hs ha hb hcross
      rw [mergeK]
      rcases List.pairwise_cons.mp ha with ⟨hahead, hatail⟩
      rcases List.pairwise_cons.mp hb with ⟨hbhead, hbtail⟩
      rcases List.pairwise_cons.mp hs with ⟨hshead, hstail⟩
      by_cases h : x.2 ≤ y.2
      · rw [if_pos h]
        rw [StableTags, List.pairwise_cons]
        constructor
        · intro z hz heq
          rcases (mem_mergeK Prod.snd xs (y :: ys) z).mp hz with hz | hz
          · exact hahead z hz heq
          · exact hcross x (List.mem_cons_self x xs) z hz
        · exact ihx (y :: ys) hstail hatail hb
            (fun p hp q hq => hcross p (List.mem_cons_of_mem x hp) q hq)
      · rw [if_neg h]
        rw [StableTags, List.pairwise_cons]
        constructor
        · intro z hz heq
          rcases (mem_mergeK Prod.snd (x :: xs) ys z).mp hz with hz | hz
          · rcases List.mem_cons.mp hz with rfl | hz
            · omega
            · have := hshead z hz; omega
          · exact hbhead z hz heq
        · exact ihy hs ha hbtail
            (fun p hp q hq => hcross p hp q (List.mem_cons_of_mem y hq))

theorem msortK_stable_aux :
    ∀ (n : Nat) (l : List (Nat × Int)), l.length ≤ n →
    l.Pairwise (fun p q => p.1 < q.1) → StableTags (msortK Prod.snd l) := by
  intro n
  induction n with
  | zero =>
    intro l hl h
    rw [msortK, dif_neg (by omega), StableTags]
    exact h.imp (fun hpq => fun _ => hpq)
  | succ n ih =>
    intro l hl h
    rw [msortK]
    by_cases h2 : 2 ≤ l.length
    · rw [dif_pos h2]
      have hta : (l.take ((l.length + 1) / 2)).Pairwise (fun p q => p.1 < q.1) :=
        h.sublist (List.take_sublist _ l)
      have hdr : (l.drop ((l.length + 1) / 2)).Pairwise (fun p q => p.1 < q.1) :=
        h.sublist (List.drop_sublist _ l)
      have hl2 : ((l.take ((l.length + 1) / 2)) ++ (l.drop ((l.length + 1) / 2))).Pairwise
          (fun p q => p.1 < q.1) := by
        rw [List.take_append_drop]; exact h
      have hsplit := List.pairwise_append.mp hl2
      refine mergeK_stable _ _ (msortK_sorted Prod.snd _)
        (ih _ (by simp only [List.length_take]; omega) hta)
        (ih _ (by simp only [List.length_drop]; omega) hdr) ?_
      intro p hp q hq
      have hp' := (msortK_perm Prod.snd (l.take ((l.length + 1) / 2))).mem_iff.mp hp
      have hq' := (msortK_perm Prod.snd (l.drop ((l.length + 1) / 2))).mem_iff.mp hq
      exact hsplit.2.2 p hp' q hq'
    · rw [dif_neg h2, StableTags]
      exact h.imp (fun hpq => fun _ => hpq)

theorem msortK_stable (l : List (Nat × Int)) (h : l.Pairwise (fun p q => p.1 < q.1)) :
    StableTags (msortK Prod.snd l) :=
  msortK_stable_aux l.length l le_rfl h

theorem mergeK_map_snd (as : List (Nat × Int)) :
    ∀ (bs : List (Nat × Int)), (mergeK Prod.snd as bs).map Prod.snd
      = mergeK id (as.map Prod.snd) (bs.map Prod.snd) := by
  induction as with
  | nil => intro bs; simp [mergeK]
  | cons x xs ihx =>
    intro bs
    induction bs with
    | nil => simp [mergeK_nil_right]
    | cons y ys ihy =>
      rw [mergeK, List.map_cons, List.map_cons, mergeK]
      by_cases h : x.2 ≤ y.2
      · rw [if_pos h, if_pos (by simpa using h)]
        rw [List.map_cons, ihx, List.map_cons]
      · rw [if_neg h, if_neg (by simpa using h)]
        rw [List.map_cons, ihy, List.map_cons]

theorem msortK_map_snd_aux :
    ∀ (n : Nat) (l : List (Nat × Int)), l.length ≤ n →
    (msortK Prod.snd l).map Prod.snd = msortK id (l.map Prod.snd) := by
  intro n
  induction n with
  | zero =>
    intro l hl
    rw [msortK, dif_neg (by omega)]
    rw [msortK, dif_neg (by simp only [List.length_map]; omega)]
  | succ n ih =>
    intro l hl
    rw [msortK]
    conv_rhs => rw [msortK]
    by_cases h : 2 ≤ l.length
    · rw [dif_pos h, dif_pos (by simpa using h)]
      rw [mergeK_map_snd]
      rw [ih _ (by simp only [List.length_take]; omega)]
      rw [ih _ (by simp only [List.length_drop]; omega)]
      rw [List.map_take, List.map_drop, List.length_map]
    · rw [dif_neg h, dif_neg (by simpa using h)]

theorem msortK_map_snd (l : List (Nat × Int)) :
    (msortK Prod.snd l).map Prod.snd = msortK id (l.map Prod.snd) :=
  msortK_map_snd_aux l.length l le_rfl

namespace QuickSort

/-- One recorded step of the quick sort visualization (`add_step` in
`src/algorithms/quicksort.py`): a defensive copy of the array plus highlight
metadata; `pivot_idx = -1` means no pivot highlighted. -/
structure QStep where
  array : List Int
  pivot_idx : Int
  comparing_indices : List Nat
  left_part : Option (Nat × Nat)
  right_part : Option (Nat × Nat)
  description : String
deriving DecidableEq

/-- The `for j in range(low, high)` loop of `partition`, threading the loop
state; `ip1` stands for the Python variable `i + 1` (the Lomuto boundary `i`
itself starts at `low - 1`); the first `Nat` argument is structural fuel,
always supplied as the exact remaining trip count `high - j`.
Returns (recorded steps, array, final `i + 1`). -/
def partitionLoop (pivot : Int) (pIdx high : Nat) :
    Nat → Nat → Nat → List Int → List QStep × List Int × Nat
  | 0, ip1, _, arr => ([], arr, ip1)
  | fuel + 1, ip1, j, arr =>
    if h : j < high then
    let cmpStep : QStep :=
      ⟨arr, pIdx, [j], none, none,
        "Comparing: " ++ toString (ga arr j) ++ " <= " ++ toString pivot ++ "?"⟩
    if ga arr j ≤ pivot then
      if ip1 ≠ j then
        let swapStep : QStep :=
          ⟨arr, pIdx, [ip1, j], none, none,
            "Swapping: " ++ toString (ga arr ip1) ++ " <-> " ++ toString (ga arr j)⟩
        let arr1 := swapL arr ip1 j
        let doneStep : QStep := ⟨arr1, pIdx, [], none, none, "Swap completed"⟩
        let r := partitionLoop pivot pIdx high fuel (ip1 + 1) (j + 1) arr1
        (cmpStep :: swapStep :: doneStep :: r.1, r.2)
      else
        let r := partitionLoop pivot pIdx high fuel (ip1 + 1) (j + 1) arr
        (cmpStep :: r.1, r.2)
    else
      let r := partitionLoop pivot pIdx high fuel ip1 (j + 1) arr
      (cmpStep :: r.1, r.2)
    else ([], arr, ip1)


/-- `partition` from `src/algorithms/quicksort.py` (Lomuto scheme, pivot is
the last element of the range); returns (steps, array, pivot position `i+1`). -/
def partition (arr : List Int) (low high : Nat) : List QStep × List Int × Nat :=
  let pivot := ga arr high
  let s0 : QStep :=
    ⟨arr, high, [], none, none,
      "Pivot selected: " ++ toString pivot ++ " (index: " ++ toString high ++ ")"⟩
  let r := partitionLoop pivot high high (high - low) low low arr
  let arr1 := r.2.1
  let ip1 := r.2.2
  if ip1 ≠ high then
    let s1 : QStep := ⟨arr1, high, [ip1], none, none, "Place pivot in correct position"⟩
    let arr2 := swapL arr1 ip1 high
    let s2 : QStep :=
      ⟨arr2, ip1, [],
        if low < ip1 then some (low, ip1 - 1) else none,
        if ip1 + 1 ≤ high then some (ip1 + 1, high) else none,
        "Partition completed. Pivot position: " ++ toString ip1⟩
    (s0 :: r.1 ++ [s1, s2], arr2, ip1)
  else
    let s2 : QStep :=
      ⟨arr1, ip1, [],
        if low < ip1 then some (low, ip1 - 1) else none,
        if ip1 + 1 ≤ high then some (ip1 + 1, high) else none,
        "Partition completed. Pivot position: " ++ toString ip1⟩
    (s0 :: r.1 ++ [s2], arr1, ip1)

theorem partitionLoop_ip1_bounds (pivot : Int) (pIdx high : Nat) :
    ∀ (n j ip1 : Nat) (arr : List Int), high - j ≤ n → ip1 ≤ j → j ≤ high →
      ip1 ≤ (partitionLoop pivot pIdx high n ip1 j arr).2.2 ∧
      (partitionLoop pivot pIdx high n ip1 j arr).2.2 ≤ high := by
  intro n
  induction n with
  | zero =>
    intro j ip1 arr hn hij hjh
    rw [partitionLoop]
    simp
    omega
  | succ n ih =>
    intro j ip1 arr hn hij hjh
    rw [partitionLoop]
    by_cases hjlt : j < high
    · rw [dif_pos hjlt]
      by_cases hle : ga arr j ≤ pivot
      · rw [if_pos hle]
        by_cases hne : ip1 = j
        · rw [if_neg (by simpa using hne)]
          simp only []
          have := ih (j + 1) (ip1 + 1) arr (by omega) (by omega) (by omega)
          omega
        · rw [if_pos hne]
          simp only []
          have := ih (j + 1) (ip1 + 1) (swapL arr ip1 j) (by omega) (by omega) (by omega)
          omega
      · rw [if_neg hle]
        simp only []
        have := ih (j + 1) ip1 arr (by omega) (by omega) (by omega)
        omega
    · rw [dif_neg hjlt]
      simp
      omega

theorem partition_pi_eq (arr : List Int) (low high : Nat) :
    (partition arr low high).2.2
      = (partitionLoop (ga arr high) high high (high - low) low low arr).2.2 := by
  simp only [partition]
  split <;> rfl

theorem partition_pi_bounds (arr : List Int) (low high : Nat) (h : low ≤ high) :
    low ≤ (partition arr low high).2.2 ∧ (partition arr low high).2.2 ≤ high := by
  rw [partition_pi_eq]
  exact partitionLoop_ip1_bounds (ga arr high) high high (high - low) low low arr
    le_rfl le_rfl h

/-- Recursive `quicksort` from the source: recurse on each side of the pivot
only when that side has more than one element, recording a descriptive step
before each recursive call; the first `Nat` argument is structural fuel,
always supplied as at least the size of the range. Returns (steps, array). -/
def quicksort : Nat → List Int → Nat → Nat → List QStep × List Int
  | 0, arr, _, _ => ([], arr)
  | fuel + 1, arr, low, high =>
    if low < high then
      let s0 : QStep :=
        ⟨arr, -1, [], none, none,
          "Quick Sort - Range: [" ++ toString low ++ ", " ++ toString high ++ "]"⟩
      let r := partition arr low high
      let arr1 := r.2.1
      let pi := r.2.2
      let leftRes :=
        if low + 1 < pi then
          let sL : QStep :=
            ⟨arr1, -1, [], some (low, pi - 1), none,
              "Sort left side: [" ++ toString low ++ ", " ++ toString (pi - 1) ++ "]"⟩
          let rL := quicksort fuel arr1 low (pi - 1)
          (sL :: rL.1, rL.2)
        else ([], arr1)
      let arr2 := leftRes.2
      let rightRes :=
        if pi + 1 < high then
          let sR : QStep :=
            ⟨arr2, -1, [], none, some (pi + 1, high),
              "Sort right side: [" ++ toString (pi + 1) ++ ", " ++ toString high ++ "]"⟩
          let rR := quicksort fuel arr2 (pi + 1) high
          (sR :: rR.1, rR.2)
        else ([], arr2)
      (s0 :: r.1 ++ leftRes.1 ++ rightRes.1, rightRes.2)
    else ([], arr)

/-- `sort_algorithm` from `src/algorithms/quicksort.py`: initial step, run
`quicksort` over the whole array, final step; returns (steps, final array). -/
def sort_algorithm (arr : List Int) : List QStep × List Int :=
  let s0 : QStep :=
    ⟨arr, -1, [], none, none, "Initial state - Quick Sort algorithm starting"⟩
  let r := quicksort arr.length arr 0 (arr.length - 1)
  (s0 :: r.1 ++ [⟨r.2, -1, [], none, none, "Sorting completed!"⟩], r.2)

end QuickSort

namespace QuickSort

theorem partitionLoop_spec (pivot : Int) (pIdx high : Nat) :
    ∀ (n j ip1 : Nat) (arr : List Int), high - j ≤ n →
      ip1 ≤ j → j ≤ high → high ≤ arr.length →
      (∀ m, ip1 ≤ m → m < j → pivot < ga arr m) →
      (partitionLoop pivot pIdx high n ip1 j arr).2.1.length = arr.length ∧
      List.Perm (partitionLoop pivot pIdx high n ip1 j arr).2.1 arr ∧
      (∀ m, m < ip1 ∨ high ≤ m →
        ga (partitionLoop pivot pIdx high n ip1 j arr).2.1 m = ga arr m) ∧
      (∀ m, ip1 ≤ m → m < (partitionLoop pivot pIdx high n ip1 j arr).2.2 →
        ga (partitionLoop pivot pIdx high n ip1 j arr).2.1 m ≤ pivot) ∧
      (∀ m, (partitionLoop pivot pIdx high n ip1 j arr).2.2 ≤ m → m < high →
        pivot < ga (partitionLoop pivot pIdx high n ip1 j arr).2.1 m) := by
  intro n
  induction n with
  | zero =>
    intro j ip1 arr hn hij hjh hhl hgt
    have hj : j = high := by omega
    rw [partitionLoop]
    subst hj
    exact ⟨rfl, List.Perm.refl arr, fun m _ => rfl,
      fun m h1 h2 => absurd h2 (by simp; omega),
      fun m h1 h2 => hgt m (by simpa using h1) h2⟩
  | succ n ih =>
    intro j ip1 arr hn hij hjh hhl hgt
    rw [partitionLoop]
    by_cases hjlt : j < high
    · rw [dif_pos hjlt]
      by_cases hle : ga arr j ≤ pivot
      · rw [if_pos hle]
        by_cases heq : ip1 = j
        · rw [if_neg (by simpa using heq)]
          have hrec := ih (j + 1) (ip1 + 1) arr (by omega) (by omega) (by omega) hhl
            (fun m h1 h2 => absurd h2 (by omega))
          obtain ⟨r1, r2, r3, r4, r5⟩ := hrec
          refine ⟨r1, r2, ?_, ?_, r5⟩
          · intro m hm
            exact r3 m (by omega)
          · intro m h1 h2
            by_cases hmi : m = ip1
            · subst hmi
              rw [r3 m (Or.inl (by omega)), heq]
              exact hle
            · exact r4 m (by omega) h2
        · rw [if_pos heq]
          have hiplt : ip1 < j := by omega
          have hjlen : j < arr.length := by omega
          have hiplen : ip1 < arr.length := by omega
          have hswlen : (swapL arr ip1 j).length = arr.length := length_swapL arr ip1 j
          have hswperm := swapL_perm arr ip1 j hiplen hjlen
          have hga := fun k => ga_swapL arr ip1 j k hiplen hjlen
          have hrec := ih (j + 1) (ip1 + 1) (swapL arr ip1 j) (by omega) (by omega)
            (by omega) (by omega) ?side
          case side =>
            intro m h1 h2
            rw [hga m]
            by_cases hmj : j = m
            · rw [if_pos hmj]
              exact hgt ip1 le_rfl hiplt
            · rw [if_neg hmj, if_neg (by omega)]
              exact hgt m (by omega) (by omega)
          obtain ⟨r1, r2, r3, r4, r5⟩ := hrec
          refine ⟨by rw [r1, hswlen], r2.trans hswperm, ?_, ?_, r5⟩
          · intro m hm
            rw [r3 m (by omega), hga m, if_neg (by omega), if_neg (by omega)]
          · intro m h1 h2
            by_cases hmi : m = ip1
            · subst hmi
              rw [r3 m (Or.inl (by omega)), hga m, if_neg (by omega), if_pos rfl]
              exact hle
            · exact r4 m (by omega) h2
      · rw [if_neg hle]
        have hrec := ih (j + 1) ip1 arr (by omega) (by omega) (by omega) hhl ?side
        case side =>
          intro m h1 h2
          by_cases hmj : m = j
          · subst hmj; omega
          · exact hgt m h1 (by omega)
        obtain ⟨r1, r2, r3, r4, r5⟩ := hrec
        exact ⟨r1, r2, r3, r4, r5⟩
    · rw [dif_neg hjlt]
      have hj : j = high := by omega
      subst hj
      exact ⟨rfl, List.Perm.refl arr, fun m _ => rfl,
        fun m h1 h2 => absurd h2 (by simp; omega),
        fun m h1 h2 => hgt m (by simpa using h1) h2⟩

end QuickSort

namespace QuickSort

theorem partition_arr_eq (arr : List Int) (low high : Nat) :
    (partition arr low high).2.1 =
      (if (partitionLoop (ga arr high) high high (high - low) low low arr).2.2 ≠ high
       then swapL (partitionLoop (ga arr high) high high (high - low) low low arr).2.1
              (partitionLoop (ga arr high) high high (high - low) low low arr).2.2 high
       else (partitionLoop (ga arr high) high high (high - low) low low arr).2.1) := by
  simp only [partition]
  by_cases h : (partitionLoop (ga arr high) high high (high - low) low low arr).2.2 = high
  · have h2 : ¬ ((partitionLoop (ga arr high) high high (high - low) low low arr).2.2 ≠ high) := by
      simpa using h
    rw [if_neg h2, if_neg h2]
  · rw [if_pos h, if_pos h]

theorem partition_spec (arr : List Int) (low high : Nat) (hlh : low ≤ high)
    (hhl : high < arr.length) :
    (partition arr low high).2.1.length = arr.length ∧
    List.Perm (partition arr low high).2.1 arr ∧
    (∀ m, m < low ∨ high < m → ga (partition arr low high).2.1 m = ga arr m) ∧
    low ≤ (partition arr low high).2.2 ∧ (partition arr low high).2.2 ≤ high ∧
    (∀ m, low ≤ m → m < (partition arr low high).2.2 →
      ga (partition arr low high).2.1 m
        ≤ ga (partition arr low high).2.1 (partition arr low high).2.2) ∧
    (∀ m, (partition arr low high).2.2 < m → m ≤ high →
      ga (partition arr low high).2.1 (partition arr low high).2.2
        < ga (partition arr low high).2.1 m) := by
  obtain ⟨l1, l2, l3, l4, l5⟩ := partitionLoop_spec (ga arr high) high high (high - low)
    low low arr le_rfl le_rfl hlh (le_of_lt hhl) (fun m h1 h2 => absurd h2 (by omega))
  obtain ⟨b1, b2⟩ := partitionLoop_ip1_bounds (ga arr high) high high (high - low)
    low low arr le_rfl le_rfl hlh
  rw [partition_arr_eq, partition_pi_eq]
  set L := partitionLoop (ga arr high) high high (high - low) low low arr with hL
  have hpivhigh : ga L.2.1 high = ga arr high := l3 high (Or.inr le_rfl)
  by_cases h : L.2.2 = high
  · rw [if_neg (by simpa using h)]
    refine ⟨l1, l2, ?_, b1, b2, ?_, ?_⟩
    · intro m hm
      exact l3 m (by omega)
    · intro m h1 h2
      rw [h, hpivhigh]
      have := l4 m h1 h2
      omega
    · intro m h1 h2
      omega
  · rw [if_pos h]
    have hip1len : L.2.2 < arr.length := by omega
    have hip1len2 : L.2.2 < L.2.1.length := by omega
    have hhlen2 : high < L.2.1.length := by omega
    have hga := fun k => ga_swapL L.2.1 L.2.2 high k hip1len2 hhlen2
    have hgapiv : ga (swapL L.2.1 L.2.2 high) L.2.2 = ga arr high := by
      rw [hga L.2.2]
      by_cases hh : high = L.2.2
      · rw [if_pos hh, ← hh, hpivhigh]
      · rw [if_neg hh, if_pos rfl, hpivhigh]
    refine ⟨by rw [length_swapL, l1], (swapL_perm L.2.1 L.2.2 high hip1len2 hhlen2).trans l2,
      ?_, b1, b2, ?_, ?_⟩
    · intro m hm
      rw [hga m, if_neg (by omega), if_neg (by omega)]
      exact l3 m (by omega)
    · intro m h1 h2
      rw [hgapiv, hga m, if_neg (by omega), if_neg (by omega)]
      have := l4 m h1 h2
      omega
    · intro m h1 h2
      rw [hgapiv, hga m]
      by_cases hm : high = m
      · rw [if_pos hm]
        have := l5 L.2.2 le_rfl (by omega)
        omega
      · rw [if_neg hm, if_neg (by omega)]
        have := l5 m (by omega) (by omega)
        omega

end QuickSort

namespace QuickSort

theorem qs_glue (arr a1 a2 a3 : List Int) (low high pi : Nat)
    (hhl : high < arr.length)
    (hlow : low ≤ pi) (hpih : pi ≤ high)
    (p1 : a1.length = arr.length) (p2 : List.Perm a1 arr)
    (p3 : ∀ m, m < low ∨ high < m → ga a1 m = ga arr m)
    (p6 : ∀ m, low ≤ m → m < pi → ga a1 m ≤ ga a1 pi)
    (p7 : ∀ m, pi < m → m ≤ high → ga a1 pi < ga a1 m)
    (A2len : a2.length = a1.length) (A2perm : List.Perm a2 a1)
    (A2out : ∀ m, m < low ∨ pi ≤ m → ga a2 m = ga a1 m)
    (A2sorted : ∀ p q, low ≤ p → p ≤ q → q < pi → ga a2 p ≤ ga a2 q)
    (A3len : a3.length = a2.length) (A3perm : List.Perm a3 a2)
    (A3out : ∀ m, m ≤ pi ∨ high < m → ga a3 m = ga a2 m)
    (A3sorted : ∀ p q, pi + 1 ≤ p → p ≤ q → q ≤ high → ga a3 p ≤ ga a3 q) :
    a3.length = arr.length ∧ List.Perm a3 arr ∧
    (∀ m, m < low ∨ high < m → ga a3 m = ga arr m) ∧
    (∀ p q, low ≤ p → p ≤ q → q ≤ high → ga a3 p ≤ ga a3 q) := by
  have hpiv : ga a3 pi = ga a1 pi := by
    rw [A3out pi (Or.inl le_rfl), A2out pi (Or.inr le_rfl)]
  have hL : ∀ m, low ≤ m → m < pi → ga a3 m ≤ ga a1 pi := by
    intro m hm1 hm2
    rw [A3out m (Or.inl (by omega))]
    have hsp : List.Perm (sliceL a2 low (pi - 1)) (sliceL a1 low (pi - 1)) :=
      perm_sliceL_of a2 a1 low (pi - 1) A2len A2perm
        (fun k hk => A2out k (by omega)) (by omega)
    have hmem : ga a2 m ∈ sliceL a2 low (pi - 1) :=
      ga_mem_sliceL a2 low (pi - 1) m hm1 (by omega) (by rw [A2len, p1]; omega)
    have hmem2 : ga a2 m ∈ sliceL a1 low (pi - 1) := hsp.mem_iff.mp hmem
    obtain ⟨m', hm'1, hm'2, hm'3, heq⟩ :=
      (mem_sliceL_iff a1 low (pi - 1) _ (by rw [p1]; omega)).mp hmem2
    rw [heq]
    exact p6 m' hm'1 (by omega)
  have hslice_eq : sliceL a2 (pi + 1) high = sliceL a1 (pi + 1) high := by
    apply List.ext_getElem
    · rw [length_sliceL, length_sliceL, A2len]
    · intro t ht1 ht2
      rw [getElem_sliceL _ _ _ _ ht1, getElem_sliceL _ _ _ _ ht2]
      exact A2out (pi + 1 + t) (Or.inr (by omega))
  have hR : ∀ m, pi < m → m ≤ high → ga a1 pi < ga a3 m := by
    intro m hm1 hm2
    have hsp : List.Perm (sliceL a3 (pi + 1) high) (sliceL a2 (pi + 1) high) :=
      perm_sliceL_of a3 a2 (pi + 1) high A3len A3perm
        (fun k hk => A3out k (by omega)) (by omega)
    have hmem : ga a3 m ∈ sliceL a3 (pi + 1) high :=
      ga_mem_sliceL a3 (pi + 1) high m (by omega) hm2
        (by rw [A3len, A2len, p1]; omega)
    have hmem2 : ga a3 m ∈ sliceL a1 (pi + 1) high := by
      rw [← hslice_eq]
      exact hsp.mem_iff.mp hmem
    obtain ⟨m', hm'1, hm'2, hm'3, heq⟩ :=
      (mem_sliceL_iff a1 (pi + 1) high _ (by rw [p1]; omega)).mp hmem2
    rw [heq]
    exact p7 m' (by omega) hm'2
  refine ⟨by rw [A3len, A2len, p1], (A3perm.trans A2perm).trans p2, ?_, ?_⟩
  · intro m hm
    rw [A3out m (by omega), A2out m (by omega)]
    exact p3 m hm
  · intro p q hp hpq hq
    rcases Nat.lt_trichotomy q pi with hq2 | hq2 | hq2
    · rw [A3out p (Or.inl (by omega)), A3out q (Or.inl (by omega))]
      exact A2sorted p q hp hpq hq2
    · by_cases hpq2 : p = q
      · rw [hpq2]
      · have hppi : p < pi := by omega
        calc ga a3 p ≤ ga a1 pi := hL p hp hppi
          _ = ga a3 pi := hpiv.symm
          _ = ga a3 q := by rw [hq2]
    · by_cases hppi : pi < p
      · exact A3sorted p q (by omega) hpq hq
      · by_cases hpeq : p = pi
        · rw [hpeq, hpiv]
          exact le_of_lt (hR q hq2 hq)
        · calc ga a3 p ≤ ga a1 pi := hL p hp (by omega)
            _ ≤ ga a3 q := le_of_lt (hR q hq2 hq)

end QuickSort

namespace QuickSort

theorem quicksort_spec :
    ∀ (n low high : Nat) (arr : List Int), high + 1 - low ≤ n → high < arr.length →
      (quicksort n arr low high).2.length = arr.length ∧
      List.Perm (quicksort n arr low high).2 arr ∧
      (∀ m, m < low ∨ high < m → ga (quicksort n arr low high).2 m = ga arr m) ∧
      (∀ p q, low ≤ p → p ≤ q → q ≤ high →
        ga (quicksort n arr low high).2 p ≤ ga (quicksort n arr low high).2 q) := by
  intro n
  induction n with
  | zero =>
    intro low high arr hn hhl
    rw [quicksort]
    refine ⟨rfl, List.Perm.refl arr, fun m _ => rfl, fun p q h1 h2 h3 => ?_⟩
    exact ((by omega : False)).elim
  | succ n ih =>
    intro low high arr hn hhl
    by_cases hlh : low < high
    case neg =>
      rw [quicksort, if_neg hlh]
      refine ⟨rfl, List.Perm.refl arr, fun m _ => rfl, fun p q h1 h2 h3 => ?_⟩
      have hpq : p = q := by omega
      rw [hpq]
    case pos =>
    obtain ⟨p1, p2, p3, p4, p5, p6, p7⟩ := partition_spec arr low high (by omega) hhl
    rw [quicksort, if_pos hlh]
    simp only
    by_cases h1 : low + 1 < (partition arr low high).2.2
    · rw [if_pos h1]
      obtain ⟨q1, q2, q3, q4⟩ := ih low ((partition arr low high).2.2 - 1)
        (partition arr low high).2.1 (by omega) (by rw [p1]; omega)
      by_cases h2 : (partition arr low high).2.2 + 1 < high
      · rw [if_pos h2]
        obtain ⟨r1, r2, r3, r4⟩ := ih ((partition arr low high).2.2 + 1) high
          (quicksort n (partition arr low high).2.1 low
            ((partition arr low high).2.2 - 1)).2 (by omega) (by rw [q1, p1]; omega)
        simp only
        exact qs_glue arr (partition arr low high).2.1 _ _ low high
          (partition arr low high).2.2 hhl p4 p5 p1 p2 p3 p6 p7
          q1 q2 (fun m hm => q3 m (by omega))
          (fun p q hp hpq hq => q4 p q hp hpq (by omega))
          r1 r2 (fun m hm => r3 m (by omega)) r4
      · rw [if_neg h2]
        simp only
        exact qs_glue arr (partition arr low high).2.1 _ _ low high
          (partition arr low high).2.2 hhl p4 p5 p1 p2 p3 p6 p7
          q1 q2 (fun m hm => q3 m (by omega))
          (fun p q hp hpq hq => q4 p q hp hpq (by omega))
          rfl (List.Perm.refl _) (fun m _ => rfl)
          (fun p q hp hpq hq => by
            have hpq2 : p = q := by omega
            rw [hpq2])
    · rw [if_neg h1]
      by_cases h2 : (partition arr low high).2.2 + 1 < high
      · rw [if_pos h2]
        obtain ⟨r1, r2, r3, r4⟩ := ih ((partition arr low high).2.2 + 1) high
          (partition arr low high).2.1 (by omega) (by rw [p1]; omega)
        simp only
        exact qs_glue arr (partition arr low high).2.1 _ _ low high
          (partition arr low high).2.2 hhl p4 p5 p1 p2 p3 p6 p7
          rfl (List.Perm.refl _) (fun m _ => rfl)
          (fun p q hp hpq hq => by
            have hpq2 : p = q := by omega
            rw [hpq2])
          r1 r2 (fun m hm => r3 m (by omega)) r4
      · rw [if_neg h2]
        simp only
        exact qs_glue arr (partition arr low high).2.1 _ _ low high
          (partition arr low high).2.2 hhl p4 p5 p1 p2 p3 p6 p7
          rfl (List.Perm.refl _) (fun m _ => rfl)
          (fun p q hp hpq hq => by
            have hpq2 : p = q := by omega
            rw [hpq2])
          rfl (List.Perm.refl _) (fun m _ => rfl)
          (fun p q hp hpq hq => by
            have hpq2 : p = q := by omega
            rw [hpq2])

theorem sort_algorithm_arr (arr : List Int) :
    (sort_algorithm arr).2 = (quicksort arr.length arr 0 (arr.length - 1)).2 := rfl

theorem sort_algorithm_getLast (arr : List Int) :
    (sort_algorithm arr).1.getLast?.map QStep.array = some (sort_algorithm arr).2 := by
  simp only [sort_algorithm]
  rw [List.getLast?_concat]
  rfl

theorem sort_algorithm_head (arr : List Int) :
    (sort_algorithm arr).1.head?.map QStep.array = some arr := rfl

theorem qs_final_sorted (arr : List Int) :
    List.Sorted (· ≤ ·) (sort_algorithm arr).2 := by
  by_cases h : arr = []
  · subst h
    exact List.sorted_nil
  · have hlen : 1 ≤ arr.length := by
      cases arr with
      | nil => simp at h
      | cons x xs => simp
    obtain ⟨s1, s2, s3, s4⟩ := quicksort_spec arr.length 0 (arr.length - 1) arr
      (by omega) (by omega)
    rw [sort_algorithm_arr]
    apply sorted_of_pointwise
    intro p q hpq hq
    rw [s1] at hq
    exact s4 p q (by omega) hpq (by omega)

theorem qs_final_perm (arr : List Int) :
    List.Perm (sort_algorithm arr).2 arr := by
  by_cases h : arr = []
  · subst h
    exact List.Perm.refl _
  · have hlen : 1 ≤ arr.length := by
      cases arr with
      | nil => simp at h
      | cons x xs => simp
    obtain ⟨s1, s2, s3, s4⟩ := quicksort_spec arr.length 0 (arr.length - 1) arr
      (by omega) (by omega)
    rw [sort_algorithm_arr]
    exact s2

theorem qstep_concat2 (s1 s2 : QStep) (X : List QStep) :
    X ++ [s1, s2] = (X ++ [s1]) ++ [s2] := by
  simp

theorem partition_last_step (arr : List Int) (low high : Nat) :
    ∃ st : QStep, (partition arr low high).1.getLast? = some st ∧
      st.array = (partition arr low high).2.1 ∧
      st.left_part = (if low < (partition arr low high).2.2
        then some (low, (partition arr low high).2.2 - 1) else none) ∧
      st.right_part = (if (partition arr low high).2.2 + 1 ≤ high
        then some ((partition arr low high).2.2 + 1, high) else none) ∧
      st.description = "Partition completed. Pivot position: "
        ++ toString (partition arr low high).2.2 ∧
      st.pivot_idx = ((partition arr low high).2.2 : Int) := by
  simp only [partition]
  by_cases h : (partitionLoop (ga arr high) high high (high - low) low low arr).2.2 = high
  · rw [if_neg (by simpa using h)]
    refine ⟨⟨(partitionLoop (ga arr high) high high (high - low) low low arr).2.1,
      ((partitionLoop (ga arr high) high high (high - low) low low arr).2.2 : Int), [],
      (if low < (partitionLoop (ga arr high) high high (high - low) low low arr).2.2
        then some (low, (partitionLoop (ga arr high) high high (high - low) low low arr).2.2 - 1) else none),
      (if (partitionLoop (ga arr high) high high (high - low) low low arr).2.2 + 1 ≤ high
        then some ((partitionLoop (ga arr high) high high (high - low) low low arr).2.2 + 1, high) else none),
      "Partition completed. Pivot position: "
        ++ toString (partitionLoop (ga arr high) high high (high - low) low low arr).2.2⟩,
      ?_, rfl, rfl, rfl, rfl, rfl⟩
    rw [List.getLast?_concat]
  · rw [if_pos h]
    refine ⟨⟨swapL (partitionLoop (ga arr high) high high (high - low) low low arr).2.1
        (partitionLoop (ga arr high) high high (high - low) low low arr).2.2 high,
      ((partitionLoop (ga arr high) high high (high - low) low low arr).2.2 : Int), [],
      (if low < (partitionLoop (ga arr high) high high (high - low) low low arr).2.2
        then some (low, (partitionLoop (ga arr high) high high (high - low) low low arr).2.2 - 1) else none),
      (if (partitionLoop (ga arr high) high high (high - low) low low arr).2.2 + 1 ≤ high
        then some ((partitionLoop (ga arr high) high high (high - low) low low arr).2.2 + 1, high) else none),
      "Partition completed. Pivot position: "
        ++ toString (partitionLoop (ga arr high) high high (high - low) low low arr).2.2⟩,
      ?_, rfl, rfl, rfl, rfl, rfl⟩
    rw [qstep_concat2, List.getLast?_concat]

end QuickSort

namespace MergeSort

/-- One recorded step of the merge sort visualization (`add_step` in
`src/algorithms/mergesort.py`). -/
structure MStep where
  array : List Int
  left_subarray : Option (Nat × Nat)
  right_subarray : Option (Nat × Nat)
  merging_range : Option (Nat × Nat)
  comparing_indices : List Nat
  description : String
deriving DecidableEq

/-- The `while i < len(left_arr) and j < len(right_arr)` loop of `merge`:
compare the two temp-array heads, write the smaller (left on ties) back into
`arr[k]`; the first `Nat` argument is structural fuel, supplied as the total
temp-array length. Returns (steps, arr, i, j, k). -/
def mergeLoop1 (leftA rightA : List Int) (left mid right : Nat) :
    Nat → Nat → Nat → Nat → List Int → List MStep × List Int × Nat × Nat × Nat
  | 0, i, j, k, arr => ([], arr, i, j, k)
  | fuel + 1, i, j, k, arr =>
    if h : i < leftA.length ∧ j < rightA.length then
      let cmpStep : MStep :=
        ⟨arr, none, none, some (left, right), [left + i, mid + 1 + j],
          "Comparing: " ++ toString (ga leftA i) ++ " vs " ++ toString (ga rightA j)
            ++ " at positions " ++ toString (left + i) ++ " and " ++ toString (mid + 1 + j)⟩
      if ga leftA i ≤ ga rightA j then
        let arr1 := arr.set k (ga leftA i)
        let plStep : MStep :=
          ⟨arr1, none, none, some (left, right), [],
            "Placed " ++ toString (ga leftA i) ++ " at position " ++ toString k⟩
        let r := mergeLoop1 leftA rightA left mid right fuel (i + 1) j (k + 1) arr1
        (cmpStep :: plStep :: r.1, r.2)
      else
        let arr1 := arr.set k (ga rightA j)
        let plStep : MStep :=
          ⟨arr1, none, none, some (left, right), [],
            "Placed " ++ toString (ga rightA j) ++ " at position " ++ toString k⟩
        let r := mergeLoop1 leftA rightA left mid right fuel i (j + 1) (k + 1) arr1
        (cmpStep :: plStep :: r.1, r.2)
    else ([], arr, i, j, k)

/-- The `while i < len(left_arr)` copy loop of `merge`; the first `Nat`
argument is structural fuel. Returns (steps, arr, k). -/
def mergeLoop2 (leftA : List Int) (left right : Nat) :
    Nat → Nat → Nat → List Int → List MStep × List Int × Nat
  | 0, _, k, arr => ([], arr, k)
  | fuel + 1, i, k, arr =>
    if h : i < leftA.length then
      let arr1 := arr.set k (ga leftA i)
      let st : MStep :=
        ⟨arr1, none, none, some (left, right), [],
          "Copying remaining left element: " ++ toString (ga leftA i)
            ++ " to position " ++ toString k⟩
      let r := mergeLoop2 leftA left right fuel (i + 1) (k + 1) arr1
      (st :: r.1, r.2)
    else ([], arr, k)

/-- The `while j < len(right_arr)` copy loop of `merge`; the first `Nat`
argument is structural fuel. Returns (steps, arr). -/
def mergeLoop3 (rightA : List Int) (left right : Nat) :
    Nat → Nat → Nat → List Int → List MStep × List Int
  | 0, _, _, arr => ([], arr)
  | fuel + 1, j, k, arr =>
    if h : j < rightA.length then
      let arr1 := arr.set k (ga rightA j)
      let st : MStep :=
        ⟨arr1, none, none, some (left, right), [],
          "Copying remaining right element: " ++ toString (ga rightA j)
            ++ " to position " ++ toString k⟩
      let r := mergeLoop3 rightA left right fuel (j + 1) (k + 1) arr1
      (st :: r.1, r.2)
    else ([], arr)

/-- `merge` from `src/algorithms/mergesort.py`: copy the two half-ranges into
temp arrays, then merge them back into `arr[left..right]`. -/
def merge (arr : List Int) (left mid right : Nat) : List MStep × List Int :=
  let left_arr := sliceL arr left mid
  let right_arr := (arr.drop (mid + 1)).take (right - mid)
  let s0 : MStep :=
    ⟨arr, some (left, mid), some (mid + 1, right), none, [],
      "Created temp arrays: Left" ++ pyListRepr left_arr
        ++ ", Right" ++ pyListRepr right_arr⟩
  let r1 := mergeLoop1 left_arr right_arr left mid right
    (left_arr.length + right_arr.length) 0 0 left arr
  let r2 := mergeLoop2 left_arr left right left_arr.length r1.2.2.1 r1.2.2.2.2 r1.2.1
  let r3 := mergeLoop3 right_arr left right right_arr.length r1.2.2.2.1 r2.2.2 r2.2.1
  let sEnd : MStep :=
    ⟨r3.2, none, none, some (left, right), [],
      "Merge completed for range [" ++ toString left ++ ":" ++ toString right ++ "]"⟩
  (s0 :: r1.1 ++ r2.1 ++ r3.1 ++ [sEnd], r3.2)

/-- `merge_sort_recursive` from the source: divide at `mid = (left+right)//2`,
record the dividing/sorting/merging steps, recurse, then merge; the first
`Nat` argument is structural fuel, supplied as at least the range size. -/
def merge_sort_recursive : Nat → List Int → Nat → Nat → List MStep × List Int
  | 0, arr, _, _ => ([], arr)
  | fuel + 1, arr, left, right =>
    if left < right then
      let mid := (left + right) / 2
      let sDiv : MStep :=
        ⟨arr, some (left, mid), some (mid + 1, right), none, [],
          "Dividing array: Left[" ++ toString left ++ ":" ++ toString mid
            ++ "], Right[" ++ toString (mid + 1) ++ ":" ++ toString right ++ "]"⟩
      let sL : MStep :=
        ⟨arr, some (left, mid), none, none, [],
          "Sorting left subarray: [" ++ toString left ++ ":" ++ toString mid ++ "]"⟩
      let rL := merge_sort_recursive fuel arr left mid
      let sR : MStep :=
        ⟨rL.2, none, some (mid + 1, right), none, [],
          "Sorting right subarray: [" ++ toString (mid + 1) ++ ":" ++ toString right ++ "]"⟩
      let rR := merge_sort_recursive fuel rL.2 (mid + 1) right
      let sM : MStep :=
        ⟨rR.2, some (left, mid), some (mid + 1, right), none, [],
          "Merging sorted subarrays: [" ++ toString left ++ ":" ++ toString mid
            ++ "] and [" ++ toString (mid + 1) ++ ":" ++ toString right ++ "]"⟩
      let rM := merge rR.2 left mid right
      (sDiv :: sL :: rL.1 ++ (sR :: rR.1) ++ (sM :: rM.1), rM.2)
    else ([], arr)

/-- `sort_algorithm` from `src/algorithms/mergesort.py`. -/
def sort_algorithm (arr : List Int) : List MStep × List Int :=
  let s0 : MStep :=
    ⟨arr, none, none, none, [], "Initial state - Merge Sort algorithm starting"⟩
  let r := merge_sort_recursive arr.length arr 0 (arr.length - 1)
  (s0 :: r.1
    ++ [⟨r.2, none, none, none, [], "Merge Sort completed! Array is now fully sorted"⟩],
    r.2)

end MergeSort

/-- Writing a list of values into consecutive positions starting at `k`
(proof artifact for the merge write-back). -/
def writeSeq (a : List Int) (k : Nat) : List Int → List Int
  | [] => a
  | v :: vs => writeSeq (a.set k v) (k + 1) vs

theorem take_set_succ (a : List Int) (k : Nat) (v : Int) (hk : k < a.length) :
    (a.set k v).take (k + 1) = a.take k ++ [v] := by
  apply List.ext_getElem
  · simp only [List.length_take, List.length_set, List.length_append,
      List.length_cons, List.length_nil]
    omega
  · intro m h1 h2
    have hm : m < k + 1 := by
      simp only [List.length_take, List.length_set] at h1
      omega
    rw [List.getElem_take, List.getElem_set, List.getElem_append]
    by_cases hmk : m < k
    · rw [if_neg (by omega), dif_pos (by simpa [List.length_take] using (by omega : m < min k a.length))]
      rw [List.getElem_take]
    · have hkm : k = m := by omega
      rw [if_pos hkm, dif_neg (by simp only [List.length_take]; omega)]
      simp

theorem writeSeq_eq (vs : List Int) :
    ∀ (a : List Int) (k : Nat), k + vs.length ≤ a.length →
      writeSeq a k vs = a.take k ++ vs ++ a.drop (k + vs.length) := by
  induction vs with
  | nil =>
    intro a k h
    rw [writeSeq]
    simp
  | cons v vs ih =>
    intro a k h
    have hk : k < a.length := by
      simp only [List.length_cons] at h
      omega
    rw [writeSeq, ih _ (k + 1) (by simp only [List.length_set]; simp only [List.length_cons] at h; omega)]
    rw [take_set_succ a k v hk, List.drop_set_of_lt _ _ (by omega)]
    have hlen : k + 1 + vs.length = k + (v :: vs).length := by simp; omega
    rw [hlen]
    simp

namespace MergeSort

theorem mergeLoop2_exit (leftA : List Int) (left right : Nat) (fuel i k : Nat)
    (arr : List Int) (h : leftA.length ≤ i) :
    mergeLoop2 leftA left right fuel i k arr = ([], arr, k) := by
  cases fuel with
  | zero => rw [mergeLoop2]
  | succ fuel => rw [mergeLoop2, dif_neg (by omega)]

theorem mergeLoop3_exit (rightA : List Int) (left right : Nat) (fuel j k : Nat)
    (arr : List Int) (h : rightA.length ≤ j) :
    mergeLoop3 rightA left right fuel j k arr = ([], arr) := by
  cases fuel with
  | zero => rw [mergeLoop3]
  | succ fuel => rw [mergeLoop3, dif_neg (by omega)]

theorem mergeLoop2_arr (leftA : List Int) (left right : Nat) :
    ∀ (n i k : Nat) (arr : List Int), leftA.length - i ≤ n →
      (mergeLoop2 leftA left right n i k arr).2.1 = writeSeq arr k (leftA.drop i) := by
  intro n
  induction n with
  | zero =>
    intro i k arr hn
    rw [mergeLoop2]
    rw [List.drop_of_length_le (by omega), writeSeq]
  | succ n ih =>
    intro i k arr hn
    by_cases h : i < leftA.length
    · rw [mergeLoop2, dif_pos h]
      simp only
      rw [ih (i + 1) (k + 1) _ (by omega)]
      have hd : leftA.drop i = ga leftA i :: leftA.drop (i + 1) := by
        rw [ga_eq_getElem _ _ h, List.drop_eq_getElem_cons h]
      rw [hd, writeSeq]
    · rw [mergeLoop2, dif_neg h]
      rw [List.drop_of_length_le (by omega), writeSeq]

theorem mergeLoop3_arr (rightA : List Int) (left right : Nat) :
    ∀ (n j k : Nat) (arr : List Int), rightA.length - j ≤ n →
      (mergeLoop3 rightA left right n j k arr).2 = writeSeq arr k (rightA.drop j) := by
  intro n
  induction n with
  | zero =>
    intro j k arr hn
    rw [mergeLoop3]
    rw [List.drop_of_length_le (by omega), writeSeq]
  | succ n ih =>
    intro j k arr hn
    by_cases h : j < rightA.length
    · rw [mergeLoop3, dif_pos h]
      simp only
      rw [ih (j + 1) (k + 1) _ (by omega)]
      have hd : rightA.drop j = ga rightA j :: rightA.drop (j + 1) := by
        rw [ga_eq_getElem _ _ h, List.drop_eq_getElem_cons h]
      rw [hd, writeSeq]
    · rw [mergeLoop3, dif_neg h]
      rw [List.drop_of_length_le (by omega), writeSeq]

theorem mergeLoops_exit (leftA rightA : List Int) (left right : Nat)
    (i j k : Nat) (arr : List Int) (h : ¬ (i < leftA.length ∧ j < rightA.length)) :
    (mergeLoop3 rightA left right rightA.length j
      (mergeLoop2 leftA left right leftA.length i k arr).2.2
      (mergeLoop2 leftA left right leftA.length i k arr).2.1).2
    = writeSeq arr k (mergeK id (leftA.drop i) (rightA.drop j)) := by
  by_cases hi : i < leftA.length
  · have hj : rightA.length ≤ j := by
      rcases Decidable.not_and_iff_or_not.mp h with h1 | h2
      · omega
      · omega
    rw [List.drop_of_length_le hj, mergeK_nil_right]
    rw [mergeLoop3_exit rightA left right rightA.length j _ _ hj]
    exact mergeLoop2_arr leftA left right leftA.length i k arr (by omega)
  · rw [mergeLoop2_exit leftA left right leftA.length i k arr (by omega)]
    rw [List.drop_of_length_le (by omega : leftA.length ≤ i), mergeK]
    exact mergeLoop3_arr rightA left right rightA.length j k arr (by omega)

theorem mergeLoops_arr (leftA rightA : List Int) (left mid right : Nat) :
    ∀ (n i j k : Nat) (arr : List Int),
      (leftA.length - i) + (rightA.length - j) ≤ n →
      (mergeLoop3 rightA left right rightA.length
        (mergeLoop1 leftA rightA left mid right n i j k arr).2.2.2.1
        (mergeLoop2 leftA left right leftA.length
          (mergeLoop1 leftA rightA left mid right n i j k arr).2.2.1
          (mergeLoop1 leftA rightA left mid right n i j k arr).2.2.2.2
          (mergeLoop1 leftA rightA left mid right n i j k arr).2.1).2.2
        (mergeLoop2 leftA left right leftA.length
          (mergeLoop1 leftA rightA left mid right n i j k arr).2.2.1
          (mergeLoop1 leftA rightA left mid right n i j k arr).2.2.2.2
          (mergeLoop1 leftA rightA left mid right n i j k arr).2.1).2.1).2
      = writeSeq arr k (mergeK id (leftA.drop i) (rightA.drop j)) := by
  intro n
  induction n with
  | zero =>
    intro i j k arr hn
    rw [mergeLoop1]
    exact mergeLoops_exit leftA rightA left right i j k arr (by omega)
  | succ n ih =>
    intro i j k arr hn
    by_cases h : i < leftA.length ∧ j < rightA.length
    · rw [mergeLoop1, dif_pos h]
      have hdl : leftA.drop i = ga leftA i :: leftA.drop (i + 1) := by
        rw [ga_eq_getElem _ _ h.1, List.drop_eq_getElem_cons h.1]
      have hdr : rightA.drop j = ga rightA j :: rightA.drop (j + 1) := by
        rw [ga_eq_getElem _ _ h.2, List.drop_eq_getElem_cons h.2]
      by_cases hle : ga leftA i ≤ ga rightA j
      · rw [if_pos hle]
        simp only
        rw [ih (i + 1) j (k + 1) _ (by omega)]
        rw [hdl, hdr, mergeK, if_pos (by simpa using hle), ← hdr, writeSeq]
      · rw [if_neg hle]
        simp only
        rw [ih i (j + 1) (k + 1) _ (by omega)]
        rw [hdl, hdr, mergeK, if_neg (by simpa using hle), ← hdl, writeSeq]
    · rw [mergeLoop1, dif_neg h]
      exact mergeLoops_exit leftA rightA left right i j k arr h

end MergeSort

namespace MergeSort

theorem merge_arr (arr : List Int) (left mid right : Nat)
    (h1 : left ≤ mid) (h2 : mid < right) (h3 : right < arr.length) :
    (merge arr left mid right).2
      = arr.take left
        ++ mergeK id (sliceL arr left mid) ((arr.drop (mid + 1)).take (right - mid))
        ++ arr.drop (right + 1) := by
  have hllen : (sliceL arr left mid).length = mid + 1 - left := by
    rw [length_sliceL]; omega
  have hrlen : ((arr.drop (mid + 1)).take (right - mid)).length = right - mid := by
    simp only [List.length_take, List.length_drop]; omega
  simp only [merge]
  rw [mergeLoops_arr (sliceL arr left mid) ((arr.drop (mid + 1)).take (right - mid))
    left mid right ((sliceL arr left mid).length + ((arr.drop (mid + 1)).take (right - mid)).length)
    0 0 left arr (by omega)]
  rw [List.drop_zero, List.drop_zero]
  rw [writeSeq_eq _ arr left (by rw [mergeK_length, hllen, hrlen]; omega)]
  have hlen2 : left + (mergeK id (sliceL arr left mid)
      ((arr.drop (mid + 1)).take (right - mid))).length = right + 1 := by
    rw [mergeK_length, hllen, hrlen]; omega
  rw [hlen2]

end MergeSort

theorem take_append_len (X Y : List Int) (n : Nat) (h : X.length = n) :
    (X ++ Y).take n = X := by
  rw [← h, List.take_left]

theorem drop_append_len (X Y : List Int) (n : Nat) (h : X.length = n) :
    (X ++ Y).drop n = Y := by
  rw [← h, List.drop_left]

namespace MergeSort

theorem msr_base (arr : List Int) (left : Nat) (hl : left < arr.length) :
    arr = arr.take left ++ msortK id (sliceL arr left left) ++ arr.drop (left + 1) := by
  have hone : (sliceL arr left left).length = 1 := by rw [length_sliceL]; omega
  rw [msortK, dif_neg (by omega)]
  conv_lhs => rw [← sliceL_append_drop arr left left (by omega)]
  rw [List.append_assoc]

theorem merge_sort_recursive_arr :
    ∀ (n left right : Nat) (arr : List Int), right - left ≤ n →
      left ≤ right → right < arr.length →
      (merge_sort_recursive n arr left right).2
        = arr.take left ++ msortK id (sliceL arr left right) ++ arr.drop (right + 1) := by
  intro n
  induction n with
  | zero =>
    intro left right arr hn hlr hrl
    have hlr2 : left = right := by omega
    rw [merge_sort_recursive]
    subst hlr2
    exact msr_base arr left hrl
  | succ n ih =>
    intro left right arr hn hlr hrl
    by_cases hltr : left < right
    case neg =>
      have hlr2 : left = right := by omega
      rw [merge_sort_recursive, if_neg (by omega)]
      subst hlr2
      exact msr_base arr left hrl
    case pos =>
    rw [merge_sort_recursive, if_pos hltr]
    simp only
    have hmid1 : left ≤ (left + right) / 2 := by omega
    have hmid2 : (left + right) / 2 < right := by omega
    have hmidlen : (left + right) / 2 < arr.length := by omega
    -- abbreviations
    set mid := (left + right) / 2 with hmiddef
    set T := arr.take left with hT
    set S1 := msortK id (sliceL arr left mid) with hS1
    set S2 := msortK id (sliceL arr (mid + 1) right) with hS2
    have hTlen : T.length = left := by
      rw [hT, List.length_take]; omega
    have hS1len : S1.length = mid + 1 - left := by
      rw [hS1, msortK_length, length_sliceL]; omega
    have hS2len : S2.length = right - mid := by
      rw [hS2, msortK_length, length_sliceL]; omega
    -- left recursion
    rw [ih left mid arr (by omega) hmid1 hmidlen]
    set A1 := T ++ S1 ++ arr.drop (mid + 1) with hA1
    have hA1shape : A1 = (T ++ S1) ++ arr.drop (mid + 1) := rfl
    have hTS1len : (T ++ S1).length = mid + 1 := by
      rw [List.length_append, hTlen, hS1len]; omega
    have hA1len : A1.length = arr.length := by
      rw [hA1shape, List.length_append, hTS1len, List.length_drop]; omega
    have hA1drop : A1.drop (mid + 1) = arr.drop (mid + 1) :=
      drop_append_len _ _ _ hTS1len
    have hA1slice : sliceL A1 (mid + 1) right = sliceL arr (mid + 1) right := by
      rw [sliceL, sliceL, hA1drop]
    have hA1dropR : A1.drop (right + 1) = arr.drop (right + 1) := by
      rw [hA1shape, List.drop_append_eq_append_drop,
        List.drop_of_length_le (by rw [hTS1len]; omega), List.nil_append,
        List.drop_drop, hTS1len]
      congr 1
      omega
    have hA1take : A1.take (mid + 1) = T ++ S1 :=
      take_append_len _ _ _ hTS1len
    -- right recursion
    rw [ih (mid + 1) right A1 (by omega) (by omega) (by rw [hA1len]; omega)]
    rw [hA1take, hA1slice, hA1dropR]
    set A2 := (T ++ S1) ++ S2 ++ arr.drop (right + 1) with hA2
    have hA2shape : A2 = ((T ++ S1) ++ S2) ++ arr.drop (right + 1) := rfl
    have hTS12len : ((T ++ S1) ++ S2).length = right + 1 := by
      rw [List.length_append, hTS1len, hS2len]; omega
    have hA2len : A2.length = arr.length := by
      rw [hA2shape, List.length_append, hTS12len, List.length_drop]; omega
    -- the merge
    rw [merge_arr A2 left mid right hmid1 hmid2 (by rw [hA2len]; omega)]
    have hA2take : A2.take left = T := by
      rw [hA2shape, List.take_append_of_le_length (by rw [hTS12len]; omega),
        List.take_append_of_le_length (by rw [hTS1len]; omega),
        List.take_append_of_le_length (by rw [hTlen]),
        hT, List.take_take]
      congr 1
      omega
    have hA2dropR : A2.drop (right + 1) = arr.drop (right + 1) :=
      drop_append_len _ _ _ hTS12len
    have hA2assoc : A2 = T ++ (S1 ++ (S2 ++ arr.drop (right + 1))) := by
      rw [hA2shape]
      simp [List.append_assoc]
    have hA2slice1 : sliceL A2 left mid = S1 := by
      rw [sliceL, hA2assoc, drop_append_len _ _ _ hTlen]
      rw [List.take_append_of_le_length (by rw [hS1len])]
      rw [List.take_of_length_le (by rw [hS1len])]
    have hA2slice2 : (A2.drop (mid + 1)).take (right - mid) = S2 := by
      have : A2 = (T ++ S1) ++ (S2 ++ arr.drop (right + 1)) := by
        rw [hA2shape]
        simp [List.append_assoc]
      rw [this, drop_append_len _ _ _ hTS1len]
      rw [List.take_append_of_le_length (by rw [hS2len])]
      rw [List.take_of_length_le (by rw [hS2len])]
    rw [hA2take, hA2dropR, hA2slice1, hA2slice2]
    -- unfold msortK on the full slice
    have hfull : (sliceL arr left right).length = right + 1 - left := by
      rw [length_sliceL]; omega
    rw [msortK, dif_pos (by rw [hfull]; omega)]
    have hhalf : ((sliceL arr left right).length + 1) / 2 = mid + 1 - left := by
      rw [hfull]; omega
    have htakehalf : (sliceL arr left right).take (((sliceL arr left right).length + 1) / 2)
        = sliceL arr left mid := by
      rw [hhalf, sliceL, sliceL, List.take_take]
      congr 1
      omega
    have hdrophalf : (sliceL arr left right).drop (((sliceL arr left right).length + 1) / 2)
        = sliceL arr (mid + 1) right := by
      rw [hhalf, sliceL, sliceL, List.drop_take, List.drop_drop]
      have e1 : right + 1 - left - (mid + 1 - left) = right + 1 - (mid + 1) := by omega
      have e2 : left + (mid + 1 - left) = mid + 1 := by omega
      rw [e1, e2]
    rw [htakehalf, hdrophalf]

end MergeSort

theorem enum_pairwise_fst (arr : List Int) :
    arr.enum.Pairwise (fun p q => p.1 < q.1) := by
  rw [List.pairwise_iff_getElem]
  intro i j hi hj hij
  rw [List.getElem_enum, List.getElem_enum]
  exact hij

namespace MergeSort

theorem ms_sort_algorithm_arr (arr : List Int) :
    (sort_algorithm arr).2 = msortK id arr := by
  by_cases h : arr = []
  · subst h
    show (merge_sort_recursive 0 [] 0 (List.length ([] : List Int) - 1)).2 = msortK id []
    rw [merge_sort_recursive, msortK, dif_neg (by simp)]
  · have hlen : 1 ≤ arr.length := by
      cases arr with
      | nil => simp at h
      | cons x xs => simp
    show (merge_sort_recursive arr.length arr 0 (arr.length - 1)).2 = msortK id arr
    rw [merge_sort_recursive_arr arr.length 0 (arr.length - 1) arr (by omega)
      (by omega) (by omega)]
    have hslice : sliceL arr 0 (arr.length - 1) = arr := by
      rw [sliceL, List.drop_zero]
      rw [show arr.length - 1 + 1 - 0 = arr.length from by omega]
      exact List.take_length arr
    rw [hslice, List.take_zero, List.nil_append]
    rw [show arr.length - 1 + 1 = arr.length from by omega, List.drop_length,
      List.append_nil]

theorem ms_sort_algorithm_getLast (arr : List Int) :
    (sort_algorithm arr).1.getLast?.map MStep.array = some (sort_algorithm arr).2 := by
  simp only [sort_algorithm]
  rw [List.getLast?_concat]
  rfl

theorem ms_sort_algorithm_head (arr : List Int) :
    (sort_algorithm arr).1.head?.map MStep.array = some arr := rfl

theorem ms_final_sorted (arr : List Int) :
    List.Sorted (· ≤ ·) (sort_algorithm arr).2 := by
  rw [ms_sort_algorithm_arr]
  have := msortK_sorted id arr
  rw [KSorted] at this
  exact this

theorem ms_final_perm (arr : List Int) :
    List.Perm (sort_algorithm arr).2 arr := by
  rw [ms_sort_algorithm_arr]
  exact msortK_perm id arr

/-- The tagged run of the merge sort projects onto the untagged run, and its
equal-valued elements keep their original relative order. -/
theorem ms_stable (arr : List Int) :
    (msortK Prod.snd arr.enum).map Prod.snd = (sort_algorithm arr).2 ∧
    StableTags (msortK Prod.snd arr.enum) := by
  constructor
  · rw [msortK_map_snd, List.enum_map_snd, ms_sort_algorithm_arr]
  · exact msortK_stable arr.enum (enum_pairwise_fst arr)

end MergeSort

namespace SelectionSort

/-- One recorded step of the selection sort visualization (`add_step` in
`src/algorithms/selectionsort.py`); `-1` marks an absent index. -/
structure SStep where
  array : List Int
  current_position : Int
  minimum_index : Int
  comparing_index : Int
  sorted_indices : List Nat
  description : String
deriving DecidableEq

/-- The `for j in range(i+1, n)` minimum-search loop of `sort_algorithm`.
Returns (steps, final minimum index). The array is only read here. -/
def selLoop (arr : List Int) (i n : Nat) (sortedIdx : List Nat) (min_idx j : Nat) :
    List SStep × Nat :=
  if h : j < n then
    let cmpStep : SStep :=
      ⟨arr, i, min_idx, j, sortedIdx,
        "Comparing: " ++ toString (ga arr j) ++ " (position " ++ toString j
          ++ ") with current minimum " ++ toString (ga arr min_idx)⟩
    if ga arr j < ga arr min_idx then
      let newStep : SStep :=
        ⟨arr, i, j, j, sortedIdx,
          "New minimum found! " ++ toString (ga arr j) ++ " at position " ++ toString j⟩
      let r := selLoop arr i n sortedIdx j (j + 1)
      (cmpStep :: newStep :: r.1, r.2)
    else
      let r := selLoop arr i n sortedIdx min_idx (j + 1)
      (cmpStep :: r.1, r.2)
  else ([], min_idx)
termination_by n - j
decreasing_by
  all_goals omega

/-- The outer `for i in range(n)` loop of `sort_algorithm`, threading the
working array and the growing `sorted_indices` list. -/
def selOuter (n : Nat) (i : Nat) (sortedIdx : List Nat) (arr : List Int) :
    List SStep × List Int :=
  if _h : i < n then
    let roundStep : SStep :=
      ⟨arr, i, i, -1, sortedIdx,
        "Round " ++ toString (i + 1) ++ ": Looking for minimum in unsorted part [position "
          ++ toString i ++ " to " ++ toString (n - 1) ++ "]"⟩
    let assumeStep : SStep :=
      ⟨arr, i, i, -1, sortedIdx,
        "Assume element at position " ++ toString i ++ " (" ++ toString (ga arr i)
          ++ ") is minimum"⟩
    let rInner := selLoop arr i n sortedIdx i (i + 1)
    let min_idx := rInner.2
    let swapRes :=
      if min_idx ≠ i then
        let preStep : SStep :=
          ⟨arr, i, min_idx, -1, sortedIdx,
            "Swapping: " ++ toString (ga arr i) ++ " (position " ++ toString i
              ++ ") with " ++ toString (ga arr min_idx) ++ " (position "
              ++ toString min_idx ++ ")"⟩
        let arr1 := swapL arr i min_idx
        let postStep : SStep :=
          ⟨arr1, i, -1, -1, sortedIdx,
            "Swap completed: " ++ toString (ga arr1 i) ++ " is now in position "
              ++ toString i⟩
        ([preStep, postStep], arr1)
      else
        ([⟨arr, i, -1, -1, sortedIdx,
            "No swap needed: " ++ toString (ga arr i) ++ " is already the minimum"⟩], arr)
    let sortedIdx1 := sortedIdx ++ [i]
    let arr2 := swapRes.2
    let posStep : SStep :=
      ⟨arr2, -1, -1, -1, sortedIdx1,
        "Position " ++ toString i ++ " is now sorted. Element " ++ toString (ga arr2 i)
          ++ " is in correct place"⟩
    let r := selOuter n (i + 1) sortedIdx1 arr2
    (roundStep :: assumeStep :: rInner.1 ++ swapRes.1 ++ [posStep] ++ r.1, r.2)
  else ([], arr)
termination_by n - i
decreasing_by
  all_goals omega

/-- `sort_algorithm` from `src/algorithms/selectionsort.py`. -/
def sort_algorithm (arr : List Int) : List SStep × List Int :=
  let s0 : SStep :=
    ⟨arr, -1, -1, -1, [], "Initial state - Selection Sort algorithm starting"⟩
  let r := selOuter arr.length 0 [] arr
  (s0 :: r.1
    ++ [⟨r.2, -1, -1, -1, List.range arr.length,
          "Selection Sort completed! All elements are now sorted"⟩],
    r.2)

end SelectionSort

namespace SelectionSort

theorem selLoop_spec (arr : List Int) (i n : Nat) (sortedIdx : List Nat) :
    ∀ (fuel j min_idx : Nat), n - j ≤ fuel → i ≤ min_idx → min_idx < n → i < j →
      (∀ t, i ≤ t → t < j → ga arr min_idx ≤ ga arr t) →
      i ≤ (selLoop arr i n sortedIdx min_idx j).2 ∧
      (selLoop arr i n sortedIdx min_idx j).2 < n ∧
      (∀ t, i ≤ t → t < n → ga arr (selLoop arr i n sortedIdx min_idx j).2 ≤ ga arr t) := by
  intro fuel
  induction fuel with
  | zero =>
    intro j min_idx hn h1 h2 h3 hmin
    rw [selLoop, dif_neg (by omega)]
    exact ⟨h1, h2, fun t ht1 ht2 => hmin t ht1 (by omega)⟩
  | succ fuel ih =>
    intro j min_idx hn h1 h2 h3 hmin
    by_cases hj : j < n
    · rw [selLoop, dif_pos hj]
      by_cases hlt : ga arr j < ga arr min_idx
      · rw [if_pos hlt]
        simp only
        exact ih (j + 1) j (by omega) (by omega) hj (by omega)
          (fun t ht1 ht2 => by
            by_cases htj : t = j
            · rw [htj]
            · have := hmin t ht1 (by omega)
              omega)
      · rw [if_neg hlt]
        simp only
        exact ih (j + 1) min_idx (by omega) h1 h2 (by omega)
          (fun t ht1 ht2 => by
            by_cases htj : t = j
            · rw [htj]; omega
            · exact hmin t ht1 (by omega))
    · rw [selLoop, dif_neg hj]
      exact ⟨h1, h2, fun t ht1 ht2 => hmin t ht1 (by omega)⟩

theorem selOuter_spec (n : Nat) :
    ∀ (fuel i : Nat) (sortedIdx : List Nat) (arr : List Int), n - i ≤ fuel →
      n ≤ arr.length →
      (selOuter n i sortedIdx arr).2.length = arr.length ∧
      List.Perm (selOuter n i sortedIdx arr).2 arr ∧
      (∀ m, m < i ∨ n ≤ m → ga (selOuter n i sortedIdx arr).2 m = ga arr m) ∧
      ((∀ p q, p < i → p ≤ q → q < n → ga arr p ≤ ga arr q) →
        (∀ p q, p ≤ q → q < n →
          ga (selOuter n i sortedIdx arr).2 p ≤ ga (selOuter n i sortedIdx arr).2 q)) := by
  intro fuel
  induction fuel with
  | zero =>
    intro i sortedIdx arr hn hnl
    rw [selOuter, dif_neg (by omega)]
    refine ⟨rfl, List.Perm.refl arr, fun m _ => rfl, fun P p q hpq hq => ?_⟩
    exact P p q (by omega) hpq hq
  | succ fuel ih =>
    intro i sortedIdx arr hn hnl
    by_cases hi : i < n
    · rw [selOuter, dif_pos hi]
      simp only
      obtain ⟨m1, m2, m3⟩ := selLoop_spec arr i n sortedIdx (n - (i + 1)) (i + 1) i
        le_rfl le_rfl hi (by omega) (fun t ht1 ht2 => by
          have ht : t = i := by omega
          rw [ht])
      set md := (selLoop arr i n sortedIdx i (i + 1)).2 with hmd
      have hilen : i < arr.length := by omega
      have hmlen : md < arr.length := by omega
      -- the swapped (or unchanged) array for this round
      by_cases hne : md = i
      · rw [if_neg (by simpa using hne)]
        simp only
        obtain ⟨r1, r2, r3, r4⟩ := ih (i + 1) (sortedIdx ++ [i]) arr (by omega) hnl
        refine ⟨r1, r2, fun m hm => r3 m (by omega), ?_⟩
        intro P p q hpq hq
        refine r4 ?_ p q hpq hq
        intro p' q' hp' hpq' hq'
        by_cases hp'i : p' < i
        · exact P p' q' hp'i hpq' hq'
        · have hp'eq : p' = i := by omega
          rw [hp'eq, ← hne]
          exact m3 q' (by omega) hq'
      · rw [if_pos hne]
        simp only
        have hga := fun k => ga_swapL arr i md k hilen hmlen
        have hswlen : (swapL arr i md).length = arr.length := length_swapL arr i md
        obtain ⟨r1, r2, r3, r4⟩ := ih (i + 1) (sortedIdx ++ [i]) (swapL arr i md)
          (by omega) (by omega)
        refine ⟨by rw [r1, hswlen], r2.trans (swapL_perm arr i md hilen hmlen),
          ?_, ?_⟩
        · intro m hm
          rw [r3 m (by omega), hga m, if_neg (by omega), if_neg (by omega)]
        · intro P p q hpq hq
          refine r4 ?_ p q hpq hq
          intro p' q' hp' hpq' hq'
          rw [hga p', hga q']
          by_cases hp'i : p' < i
          · rw [if_neg (by omega), if_neg (by omega)]
            by_cases hq'm : md = q'
            · rw [if_pos hq'm]
              exact P p' i hp'i (by omega) hi
            · rw [if_neg hq'm]
              by_cases hq'i : i = q'
              · rw [if_pos hq'i]
                exact P p' md hp'i (by omega) m2
              · rw [if_neg hq'i]
                exact P p' q' hp'i hpq' hq'
          · have hp'eq : p' = i := by omega
            subst hp'eq
            rw [if_neg (by omega), if_pos rfl]
            by_cases hq'm : md = q'
            · rw [if_pos hq'm]
              exact m3 p' le_rfl hi
            · rw [if_neg hq'm]
              by_cases hq'i : p' = q'
              · omega
              · rw [if_neg hq'i]
                exact m3 q' (by omega) hq'
    · rw [selOuter, dif_neg hi]
      refine ⟨rfl, List.Perm.refl arr, fun m _ => rfl, fun P p q hpq hq => ?_⟩
      exact P p q (by omega) hpq hq

end SelectionSort

namespace SelectionSort

theorem sel_sort_algorithm_arr (arr : List Int) :
    (sort_algorithm arr).2 = (selOuter arr.length 0 [] arr).2 := rfl

theorem sel_final_sorted (arr : List Int) :
    List.Sorted (· ≤ ·) (sort_algorithm arr).2 := by
  obtain ⟨r1, r2, r3, r4⟩ := selOuter_spec arr.length arr.length 0 [] arr le_rfl le_rfl
  rw [sel_sort_algorithm_arr]
  apply sorted_of_pointwise
  intro p q hpq hq
  rw [r1] at hq
  exact r4 (fun p' q' hp' _ _ => absurd hp' (by omega)) p q hpq hq

theorem sel_final_perm (arr : List Int) :
    List.Perm (sort_algorithm arr).2 arr := by
  obtain ⟨r1, r2, r3, r4⟩ := selOuter_spec arr.length arr.length 0 [] arr le_rfl le_rfl
  exact r2

theorem sel_sort_algorithm_getLast (arr : List Int) :
    (sort_algorithm arr).1.getLast?.map SStep.array = some (sort_algorithm arr).2 := by
  simp only [sort_algorithm]
  rw [List.getLast?_concat]
  rfl

theorem sel_sort_algorithm_head (arr : List Int) :
    (sort_algorithm arr).1.head?.map SStep.array = some arr := rfl

end SelectionSort

/-! ## The playback controller (`src/algorithms/base_algorithm.py`)

The controller is generic over the step type `σ` of the active engine; `gen`
is the engine's `sort_algorithm` run on a copy of the working array
(returning the recorded steps and the sorted array), and `snap` extracts a
step's `array_snapshot` as used by the subclasses' `show_current_step`. -/

structure MState (σ : Type) where
  array : List Int
  original_array : List Int
  steps : List σ
  current_step : Nat
  is_sorting : Bool
  is_playing : Bool
  animation_speed : Nat
deriving DecidableEq

namespace Controller

variable {σ : Type}

/-- `set_manual_array`: capture the array; both copies, empty steps, cursor 0. -/
def set_manual_array (arr : List Int) : MState σ :=
  ⟨arr, arr, [], 0, false, false, 1000⟩

/-- `generate_steps`: run the engine on a copy of the working array; the
working array becomes the engine's final (sorted) array. No-op on an empty
array. -/
def generate_steps (gen : List Int → List σ × List Int) (s : MState σ) : MState σ :=
  if s.array = [] then s
  else { s with steps := (gen s.array).1, array := (gen s.array).2 }

/-- `show_current_step` as implemented by every engine subclass: when the
cursor is in range, the working array is replaced by the displayed snapshot. -/
def show_current_step (snap : σ → List Int) (s : MState σ) : MState σ :=
  if s.steps.isEmpty then s
  else
    match s.steps[s.current_step]? with
    | some st => { s with array := snap st }
    | none => s

/-- One invocation of `animate_sorting`: stop when paused or exhausted
(clearing `is_sorting` when exhausted), otherwise display the current step and
advance the cursor. The rescheduled call is a separate `tick`. -/
def animate_sorting (snap : σ → List Int) (s : MState σ) : MState σ :=
  if ¬ s.is_playing ∨ s.steps.length ≤ s.current_step then
    if s.steps.length ≤ s.current_step then { s with is_sorting := false } else s
  else
    let s1 := show_current_step snap s
    { s1 with current_step := s1.current_step + 1 }

/-- `start_sorting`: idempotent guard on `is_sorting`; lazily generate the
steps; mark playing and run the first animation frame. -/
def start_sorting (gen : List Int → List σ × List Int) (snap : σ → List Int)
    (s : MState σ) : MState σ :=
  if s.is_sorting then s
  else
    let s1 := if s.steps.isEmpty then generate_steps gen s else s
    animate_sorting snap { s1 with is_sorting := true, is_playing := true }

/-- `fast_sort` (base class): like `start_sorting` but forces a 50 ms frame
interval. -/
def fast_sort (gen : List Int → List σ × List Int) (snap : σ → List Int)
    (s : MState σ) : MState σ :=
  if s.is_sorting then s
  else
    let s1 := if s.steps.isEmpty then generate_steps gen s else s
    animate_sorting snap
      { s1 with is_sorting := true, is_playing := true, animation_speed := 50 }

/-- `pause_sorting`. -/
def pause_sorting (s : MState σ) : MState σ := { s with is_playing := false }

/-- `reset_sorting`: back to idle, cursor 0, steps discarded, working array
restored from the original. -/
def reset_sorting (s : MState σ) : MState σ :=
  { s with is_sorting := false, is_playing := false, current_step := 0,
           steps := [], array := s.original_array }

/-- `step_forward`: lazily generate, then advance the cursor if not at the
last step and display. -/
def step_forward (gen : List Int → List σ × List Int) (snap : σ → List Int)
    (s : MState σ) : MState σ :=
  let s1 := if s.steps.isEmpty then generate_steps gen s else s
  if s1.current_step + 1 < s1.steps.length then
    show_current_step snap { s1 with current_step := s1.current_step + 1 }
  else s1

/-- `step_backward`: move the cursor back if positive and display. No lazy
generation happens here. -/
def step_backward (snap : σ → List Int) (s : MState σ) : MState σ :=
  if 0 < s.current_step then
    show_current_step snap { s with current_step := s.current_step - 1 }
  else s

/-- The navigation commands a UI collaborator can issue; `tick` is a fired
auto-advance callback. -/
inductive Cmd where
  | start
  | fastSort
  | pause
  | reset
  | stepFwd
  | stepBack
  | tick
deriving DecidableEq

def applyCmd (gen : List Int → List σ × List Int) (snap : σ → List Int)
    (c : Cmd) (s : MState σ) : MState σ :=
  match c with
  | Cmd.start => start_sorting gen snap s
  | Cmd.fastSort => fast_sort gen snap s
  | Cmd.pause => pause_sorting s
  | Cmd.reset => reset_sorting s
  | Cmd.stepFwd => step_forward gen snap s
  | Cmd.stepBack => step_backward snap s
  | Cmd.tick => animate_sorting snap s

def applyCmds (gen : List Int → List σ × List Int) (snap : σ → List Int)
    (cs : List Cmd) (s : MState σ) : MState σ :=
  cs.foldl (fun st c => applyCmd gen snap c st) s

end Controller

namespace Controller

variable {σ : Type}

theorem show_original (snap : σ → List Int) (s : MState σ) :
    (show_current_step snap s).original_array = s.original_array := by
  rw [show_current_step]
  split
  · rfl
  · split <;> rfl

theorem show_steps (snap : σ → List Int) (s : MState σ) :
    (show_current_step snap s).steps = s.steps := by
  rw [show_current_step]
  split
  · rfl
  · split <;> rfl

theorem show_cursor (snap : σ → List Int) (s : MState σ) :
    (show_current_step snap s).current_step = s.current_step := by
  rw [show_current_step]
  split
  · rfl
  · split <;> rfl

theorem generate_original (gen : List Int → List σ × List Int) (s : MState σ) :
    (generate_steps gen s).original_array = s.original_array := by
  rw [generate_steps]
  split <;> rfl

theorem generate_cursor (gen : List Int → List σ × List Int) (s : MState σ) :
    (generate_steps gen s).current_step = s.current_step := by
  rw [generate_steps]
  split <;> rfl

theorem animate_original (snap : σ → List Int) (s : MState σ) :
    (animate_sorting snap s).original_array = s.original_array := by
  rw [animate_sorting]
  split
  · split <;> rfl
  · rw [show_original]

theorem animate_cursor_le (snap : σ → List Int) (s : MState σ)
    (h : s.current_step ≤ s.steps.length) :
    (animate_sorting snap s).current_step ≤ (animate_sorting snap s).steps.length := by
  rw [animate_sorting]
  split
  · split <;> exact h
  case isFalse hn =>
    rw [not_or] at hn
    have hlt : s.current_step < s.steps.length := by omega
    show (show_current_step snap s).current_step + 1 ≤ (show_current_step snap s).steps.length
    rw [show_cursor, show_steps]
    omega

theorem start_aux_original (gen : List Int → List σ × List Int) (s : MState σ) :
    (if s.steps.isEmpty then generate_steps gen s else s).original_array
      = s.original_array := by
  split
  · exact generate_original gen s
  · rfl

theorem start_aux_cursor (gen : List Int → List σ × List Int) (s : MState σ)
    (h : s.current_step ≤ s.steps.length) :
    (if s.steps.isEmpty then generate_steps gen s else s).current_step
      ≤ (if s.steps.isEmpty then generate_steps gen s else s).steps.length := by
  split
  case isTrue he =>
    rw [generate_cursor]
    rw [List.isEmpty_iff] at he
    rw [he] at h
    simp at h
    omega
  case isFalse he => exact h

theorem stepfwd_tail_original (snap : σ → List Int) (s1 : MState σ) :
    (if s1.current_step + 1 < s1.steps.length then
        show_current_step snap { s1 with current_step := s1.current_step + 1 }
      else s1).original_array = s1.original_array := by
  split
  · rw [show_original]
  · rfl

theorem stepfwd_tail_cursor (snap : σ → List Int) (s1 : MState σ)
    (h : s1.current_step ≤ s1.steps.length) :
    (if s1.current_step + 1 < s1.steps.length then
        show_current_step snap { s1 with current_step := s1.current_step + 1 }
      else s1).current_step
    ≤ (if s1.current_step + 1 < s1.steps.length then
        show_current_step snap { s1 with current_step := s1.current_step + 1 }
      else s1).steps.length := by
  split
  case isTrue hlt =>
    rw [show_cursor, show_steps]
    show s1.current_step + 1 ≤ s1.steps.length
    omega
  case isFalse hge => exact h

theorem applyCmd_original (gen : List Int → List σ × List Int) (snap : σ → List Int)
    (c : Cmd) (s : MState σ) :
    (applyCmd gen snap c s).original_array = s.original_array := by
  cases c with
  | start =>
    rw [applyCmd, start_sorting]
    split
    · rfl
    · rw [animate_original]
      exact start_aux_original gen s
  | fastSort =>
    rw [applyCmd, fast_sort]
    split
    · rfl
    · rw [animate_original]
      exact start_aux_original gen s
  | pause => rfl
  | reset => rfl
  | stepFwd =>
    rw [applyCmd, step_forward]
    split
    case isTrue he =>
      rw [stepfwd_tail_original snap (generate_steps gen s), generate_original]
    case isFalse he =>
      rw [stepfwd_tail_original snap s]
  | stepBack =>
    rw [applyCmd, step_backward]
    split
    · rw [show_original]
    · rfl
  | tick => exact animate_original snap s

theorem applyCmd_cursor_le (gen : List Int → List σ × List Int) (snap : σ → List Int)
    (c : Cmd) (s : MState σ) (h : s.current_step ≤ s.steps.length) :
    (applyCmd gen snap c s).current_step ≤ (applyCmd gen snap c s).steps.length := by
  cases c with
  | start =>
    rw [applyCmd, start_sorting]
    split
    · exact h
    · exact animate_cursor_le snap _ (start_aux_cursor gen s h)
  | fastSort =>
    rw [applyCmd, fast_sort]
    split
    · exact h
    · exact animate_cursor_le snap _ (start_aux_cursor gen s h)
  | pause => exact h
  | reset => simp [applyCmd, reset_sorting]
  | stepFwd =>
    rw [applyCmd, step_forward]
    split
    case isTrue he =>
      refine stepfwd_tail_cursor snap (generate_steps gen s) ?_
      rw [generate_cursor]
      rw [List.isEmpty_iff] at he
      rw [he] at h
      simp at h
      omega
    case isFalse he => exact stepfwd_tail_cursor snap s h
  | stepBack =>
    rw [applyCmd, step_backward]
    split
    · rw [show_cursor, show_steps]
      simp only
      omega
    · exact h
  | tick => exact animate_cursor_le snap s h

theorem applyCmds_original (gen : List Int → List σ × List Int) (snap : σ → List Int)
    (cs : List Cmd) (s : MState σ) :
    (applyCmds gen snap cs s).original_array = s.original_array := by
  induction cs generalizing s with
  | nil => rfl
  | cons c cs ih =>
    rw [applyCmds, List.foldl_cons]
    rw [show (List.foldl (fun st c => applyCmd gen snap c st) (applyCmd gen snap c s) cs)
      = applyCmds gen snap cs (applyCmd gen snap c s) from rfl]
    rw [ih, applyCmd_original]

theorem applyCmds_cursor_le (gen : List Int → List σ × List Int) (snap : σ → List Int)
    (cs : List Cmd) (s : MState σ) (h : s.current_step ≤ s.steps.length) :
    (applyCmds gen snap cs s).current_step ≤ (applyCmds gen snap cs s).steps.length := by
  induction cs generalizing s with
  | nil => exact h
  | cons c cs ih =>
    rw [applyCmds, List.foldl_cons]
    exact ih (applyCmd gen snap c s) (applyCmd_cursor_le gen snap c s h)

end Controller

/-! ## The claims -/

/-- **C1**: for every input array and each of the three engines, running the
engine's `sort_algorithm` on a copy of the array produces a non-empty step
sequence whose final step record's array snapshot is sorted in non-decreasing
order. -/
theorem claim_C1_sortedness (arr : List Int) :
    (∃ st : QuickSort.QStep, (QuickSort.sort_algorithm arr).1.getLast? = some st ∧
      List.Sorted (· ≤ ·) st.array) ∧
    (∃ st : MergeSort.MStep, (MergeSort.sort_algorithm arr).1.getLast? = some st ∧
      List.Sorted (· ≤ ·) st.array) ∧
    (∃ st : SelectionSort.SStep, (SelectionSort.sort_algorithm arr).1.getLast? = some st ∧
      List.Sorted (· ≤ ·) st.array) := by
  refine ⟨?_, ?_, ?_⟩
  · have h := QuickSort.sort_algorithm_getLast arr
    rcases hq : (QuickSort.sort_algorithm arr).1.getLast? with _ | st
    · rw [hq] at h; simp at h
    · rw [hq] at h
      simp only [Option.map_some'] at h
      refine ⟨st, rfl, ?_⟩
      have harr : st.array = (QuickSort.sort_algorithm arr).2 := by
        injection h
      rw [harr]
      exact QuickSort.qs_final_sorted arr
  · have h := MergeSort.ms_sort_algorithm_getLast arr
    rcases hq : (MergeSort.sort_algorithm arr).1.getLast? with _ | st
    · rw [hq] at h; simp at h
    · rw [hq] at h
      simp only [Option.map_some'] at h
      refine ⟨st, rfl, ?_⟩
      have harr : st.array = (MergeSort.sort_algorithm arr).2 := by
        injection h
      rw [harr]
      exact MergeSort.ms_final_sorted arr
  · have h := SelectionSort.sel_sort_algorithm_getLast arr
    rcases hq : (SelectionSort.sort_algorithm arr).1.getLast? with _ | st
    · rw [hq] at h; simp at h
    · rw [hq] at h
      simp only [Option.map_some'] at h
      refine ⟨st, rfl, ?_⟩
      have harr : st.array = (SelectionSort.sort_algorithm arr).2 := by
        injection h
      rw [harr]
      exact SelectionSort.sel_final_sorted arr

/-- **C2**: for every input array and each of the three engines, the final
step record's array snapshot is a permutation of the original input (same
multiset of values). -/
theorem claim_C2_permutation (arr : List Int) :
    (∃ st : QuickSort.QStep, (QuickSort.sort_algorithm arr).1.getLast? = some st ∧
      List.Perm st.array arr) ∧
    (∃ st : MergeSort.MStep, (MergeSort.sort_algorithm arr).1.getLast? = some st ∧
      List.Perm st.array arr) ∧
    (∃ st : SelectionSort.SStep, (SelectionSort.sort_algorithm arr).1.getLast? = some st ∧
      List.Perm st.array arr) := by
  refine ⟨?_, ?_, ?_⟩
  · have h := QuickSort.sort_algorithm_getLast arr
    rcases hq : (QuickSort.sort_algorithm arr).1.getLast? with _ | st
    · rw [hq] at h; simp at h
    · rw [hq] at h
      simp only [Option.map_some'] at h
      refine ⟨st, rfl, ?_⟩
      have harr : st.array = (QuickSort.sort_algorithm arr).2 := by
        injection h
      rw [harr]
      exact QuickSort.qs_final_perm arr
  · have h := MergeSort.ms_sort_algorithm_getLast arr
    rcases hq : (MergeSort.sort_algorithm arr).1.getLast? with _ | st
    · rw [hq] at h; simp at h
    · rw [hq] at h
      simp only [Option.map_some'] at h
      refine ⟨st, rfl, ?_⟩
      have harr : st.array = (MergeSort.sort_algorithm arr).2 := by
        injection h
      rw [harr]
      exact MergeSort.ms_final_perm arr
  · have h := SelectionSort.sel_sort_algorithm_getLast arr
    rcases hq : (SelectionSort.sort_algorithm arr).1.getLast? with _ | st
    · rw [hq] at h; simp at h
    · rw [hq] at h
      simp only [Option.map_some'] at h
      refine ⟨st, rfl, ?_⟩
      have harr : st.array = (SelectionSort.sort_algorithm arr).2 := by
        injection h
      rw [harr]
      exact SelectionSort.sel_final_perm arr

/-- **C3**: merge sort is stable on arrays with duplicate values: tagging each
input element with its original position and running the same merge (ties
prefer the left candidate, i.e. the smaller tag) yields exactly the engine's
final snapshot once tags are erased, and any two equal values end up with
their tags — their original positions — in increasing order. -/
theorem claim_C3_stability (arr : List Int) (hdup : ¬ arr.Nodup) :
    (msortK Prod.snd arr.enum).map Prod.snd = (MergeSort.sort_algorithm arr).2 ∧
    StableTags (msortK Prod.snd arr.enum) :=
  MergeSort.ms_stable arr

/-- Witness for C3 at the duplicate-containing input `[2, 1, 2]`. -/
theorem claim_C3_stability_witness :
    ¬ ([2, 1, 2] : List Int).Nodup ∧
    ((msortK Prod.snd ([2, 1, 2] : List Int).enum).map Prod.snd
        = (MergeSort.sort_algorithm [2, 1, 2]).2 ∧
      StableTags (msortK Prod.snd ([2, 1, 2] : List Int).enum)) :=
  ⟨by decide, claim_C3_stability [2, 1, 2] (by decide)⟩

/-- **C4 (as written) is false**: with the quick sort engine on `[2, 1, 3]`,
pressing start and letting every auto-advance tick fire leaves the cursor
equal to the step-sequence length `N`, violating `cursor < N` while the
sequence is non-empty. -/
theorem claim_C4_counterexample :
    (Controller.applyCmds QuickSort.sort_algorithm QuickSort.QStep.array
        (Controller.Cmd.start ::
          List.replicate (QuickSort.sort_algorithm [2, 1, 3]).1.length Controller.Cmd.tick)
        (Controller.set_manual_array [2, 1, 3])).steps ≠ [] ∧
    ¬ ((Controller.applyCmds QuickSort.sort_algorithm QuickSort.QStep.array
        (Controller.Cmd.start ::
          List.replicate (QuickSort.sort_algorithm [2, 1, 3]).1.length Controller.Cmd.tick)
        (Controller.set_manual_array [2, 1, 3])).current_step
      < (Controller.applyCmds QuickSort.sort_algorithm QuickSort.QStep.array
        (Controller.Cmd.start ::
          List.replicate (QuickSort.sort_algorithm [2, 1, 3]).1.length Controller.Cmd.tick)
        (Controller.set_manual_array [2, 1, 3])).steps.length) := by
  decide

/-- **C4 (amended)**: after every sequence of controller operations the
Playback Cursor satisfies `0 ≤ cursor ≤ N`; only the auto-advance tick that
consumes the final step leaves it at `N`. -/
theorem claim_C4_cursor_bound {σ : Type} (gen : List Int → List σ × List Int)
    (snap : σ → List Int) (arr : List Int) (cs : List Controller.Cmd) :
    (Controller.applyCmds gen snap cs (Controller.set_manual_array arr)).current_step
      ≤ (Controller.applyCmds gen snap cs (Controller.set_manual_array arr)).steps.length :=
  Controller.applyCmds_cursor_le gen snap cs _ (Nat.le_refl 0)

/-- **C5**: after any finite sequence of navigation commands, reset leaves
the cursor at 0, discards the step sequence, and restores the working array
to the originally captured array. -/
theorem claim_C5_reset {σ : Type} (gen : List Int → List σ × List Int)
    (snap : σ → List Int) (arr : List Int) (cs : List Controller.Cmd) :
    (Controller.reset_sorting
        (Controller.applyCmds gen snap cs (Controller.set_manual_array arr))).current_step = 0 ∧
    (Controller.reset_sorting
        (Controller.applyCmds gen snap cs (Controller.set_manual_array arr))).steps = [] ∧
    (Controller.reset_sorting
        (Controller.applyCmds gen snap cs (Controller.set_manual_array arr))).array = arr := by
  refine ⟨rfl, rfl, ?_⟩
  show (Controller.applyCmds gen snap cs (Controller.set_manual_array arr)).original_array = arr
  rw [Controller.applyCmds_original]
  rfl

/-- **C6 (as written) is false**: in the merge-sort run on `[5, 2, 8, 1, 9]`
no step at all tags a left half-range `(0, 1)` together with a right
half-range `(2, 4)`: `mid = (0+4)//2 = 2` makes the halves `(0, 2)` and
`(3, 4)`. -/
theorem claim_C6_counterexample :
    (MergeSort.sort_algorithm [5, 2, 8, 1, 9]).1.all
      (fun st => decide
        (¬ (st.left_subarray = some (0, 1) ∧ st.right_subarray = some (2, 4)))) = true := by
  decide

/-- **C6 (amended)**: merge sort on `[5, 2, 8, 1, 9]` records a "dividing"
step tagging the left half-range `(0, 2)` and the right half-range `(3, 4)`
(for `left = 0`, `right = 4`, `mid = 2` by integer division). -/
theorem claim_C6_dividing :
    ∃ st ∈ (MergeSort.sort_algorithm [5, 2, 8, 1, 9]).1,
      st.description = "Dividing array: Left[0:2], Right[3:4]" ∧
      st.left_subarray = some (0, 2) ∧ st.right_subarray = some (3, 4) := by
  decide

/-- **C7 (as written) is false**: in the quick-sort run on `[5, 2, 8, 1, 9]`
the first recorded step is the "Initial state" step, whose description does
not name the pivot (it contains no character `9` at all); the pivot-selection
step comes later. -/
theorem claim_C7_counterexample :
    (QuickSort.sort_algorithm [5, 2, 8, 1, 9]).1.head?.map QuickSort.QStep.description
      = some "Initial state - Quick Sort algorithm starting" ∧
    (QuickSort.sort_algorithm [5, 2, 8, 1, 9]).1.head?.map
        (fun st => st.description.data.contains (Char.ofNat 57)) = some false := by
  exact ⟨rfl, by decide⟩

/-- **C7 (amended)**: quick sort on `[5, 2, 8, 1, 9]` ends with final snapshot
`[1, 2, 5, 8, 9]` (also carried by the last step record), and the first step
recorded by `partition` — step index 2 of the run, after the initial-state and
range steps — names pivot value `9` at index `4`. -/
theorem claim_C7_scenario :
    (QuickSort.sort_algorithm [5, 2, 8, 1, 9]).2 = [1, 2, 5, 8, 9] ∧
    (QuickSort.sort_algorithm [5, 2, 8, 1, 9]).1.getLast?.map QuickSort.QStep.array
      = some [1, 2, 5, 8, 9] ∧
    ((QuickSort.sort_algorithm [5, 2, 8, 1, 9]).1[2]?).map QuickSort.QStep.description
      = some "Pivot selected: 9 (index: 4)" := by
  refine ⟨by decide, ?_, by decide⟩
  decide

/-- **C8**: the "partition completed" step is the last step `partition`
records; writing `pi` for the returned pivot position (`pi = i + 1` for the
final Lomuto boundary `i`), the step tags `pi`, carries the left range
`(low, pi - 1) = (low, i)` exactly when `low < pi` (i.e. `i ≥ low`) and omits
it otherwise, and carries the right range `(pi + 1, high) = (i + 2, high)`
exactly when `pi + 1 ≤ high` (i.e. `i + 2 ≤ high`) and omits it otherwise. -/
theorem claim_C8_partition_ranges (arr : List Int) (low high : Nat) :
    ∃ st : QuickSort.QStep,
      (QuickSort.partition arr low high).1.getLast? = some st ∧
      st.pivot_idx = ((QuickSort.partition arr low high).2.2 : Int) ∧
      st.left_part = (if low < (QuickSort.partition arr low high).2.2
        then some (low, (QuickSort.partition arr low high).2.2 - 1) else none) ∧
      st.right_part = (if (QuickSort.partition arr low high).2.2 + 1 ≤ high
        then some ((QuickSort.partition arr low high).2.2 + 1, high) else none) := by
  obtain ⟨st, h1, _, h3, h4, _, h6⟩ := QuickSort.partition_last_step arr low high
  exact ⟨st, h1, h6, h3, h4⟩

/-- **C9 (as written) is false**: on a freshly loaded array, `step_backward`
does not generate anything: the step sequence stays empty even though the
engine would produce a non-empty one. -/
theorem claim_C9_counterexample :
    (Controller.step_backward QuickSort.QStep.array
        (Controller.set_manual_array [2, 1, 3])).steps = ([] : List QuickSort.QStep) ∧
    (QuickSort.sort_algorithm [2, 1, 3]).1 ≠ [] := by
  exact ⟨rfl, by decide⟩

/-- **C9 (amended)**: neither navigation call errors on an empty step
sequence, but only `step_forward` lazily generates: on a state with no steps
and a non-empty array it fills the sequence with the engine's full run and
then advances the cursor by one exactly when that stays within the sequence
bounds (otherwise the cursor stays), while `step_backward` performs no
generation at all: it only moves the cursor one position back, clamped at
zero, leaving the (empty) step sequence, the array and every other field
unchanged. -/
theorem claim_C9_lazy_generation {σ : Type} (gen : List Int → List σ × List Int)
    (snap : σ → List Int) (s : MState σ)
    (h0 : s.steps = []) (ha : s.array ≠ []) :
    ((Controller.step_forward gen snap s).steps = (gen s.array).1 ∧
      (Controller.step_forward gen snap s).current_step =
        (if s.current_step + 1 < (gen s.array).1.length
          then s.current_step + 1 else s.current_step)) ∧
    Controller.step_backward snap s = { s with current_step := s.current_step - 1 } := by
  have hempty : s.steps.isEmpty = true := by rw [h0]; rfl
  have hgen : Controller.generate_steps gen s
      = { s with steps := (gen s.array).1, array := (gen s.array).2 } := by
    rw [Controller.generate_steps, if_neg ha]
  refine ⟨?_, ?_⟩
  · rw [Controller.step_forward]
    rw [if_pos hempty, hgen]
    by_cases hc : s.current_step + 1 < (gen s.array).1.length
    · rw [if_pos hc, if_pos hc]
      exact ⟨Controller.show_steps snap _, Controller.show_cursor snap _⟩
    · rw [if_neg hc, if_neg hc]
      exact ⟨rfl, rfl⟩
  · rw [Controller.step_backward]
    by_cases hc : 0 < s.current_step
    · rw [if_pos hc]
      rw [Controller.show_current_step,
        if_pos (show ({ s with current_step := s.current_step - 1 }
          : MState σ).steps.isEmpty = true from hempty)]
    · rw [if_neg hc]
      have hc0 : s.current_step - 1 = s.current_step := by omega
      rw [hc0]

/-- Witness for C9 (amended) on the quick-sort engine with array
`[2, 1, 3]`: step-forward generates the full run and moves the cursor to 1,
step-backward leaves the freshly loaded state untouched. -/
theorem claim_C9_lazy_generation_witness :
    ((Controller.set_manual_array [2, 1, 3] : MState QuickSort.QStep).steps = []
      ∧ (Controller.set_manual_array [2, 1, 3]
          : MState QuickSort.QStep).array ≠ []) ∧
    (((Controller.step_forward QuickSort.sort_algorithm QuickSort.QStep.array
        (Controller.set_manual_array [2, 1, 3])).steps
        = (QuickSort.sort_algorithm [2, 1, 3]).1 ∧
      (Controller.step_forward QuickSort.sort_algorithm QuickSort.QStep.array
        (Controller.set_manual_array [2, 1, 3])).current_step = 1) ∧
     Controller.step_backward QuickSort.QStep.array
        (Controller.set_manual_array [2, 1, 3])
        = Controller.set_manual_array [2, 1, 3]) :=
  ⟨⟨rfl, by decide⟩,
    claim_C9_lazy_generation QuickSort.sort_algorithm QuickSort.QStep.array
      (Controller.set_manual_array [2, 1, 3]) rfl (by decide)⟩

/-- **C10**: for each engine and every non-empty input, the run records at
least one step and the first step record's array snapshot is exactly the
unmodified input (the "initial state" step precedes any mutation). -/
theorem claim_C10_initial_step (arr : List Int) (h : arr ≠ []) :
    ((QuickSort.sort_algorithm arr).1 ≠ [] ∧
      (QuickSort.sort_algorithm arr).1.head?.map QuickSort.QStep.array = some arr) ∧
    ((MergeSort.sort_algorithm arr).1 ≠ [] ∧
      (MergeSort.sort_algorithm arr).1.head?.map MergeSort.MStep.array = some arr) ∧
    ((SelectionSort.sort_algorithm arr).1 ≠ [] ∧
      (SelectionSort.sort_algorithm arr).1.head?.map SelectionSort.SStep.array
        = some arr) := by
  refine ⟨⟨?_, QuickSort.sort_algorithm_head arr⟩,
    ⟨?_, MergeSort.ms_sort_algorithm_head arr⟩,
    ⟨?_, SelectionSort.sel_sort_algorithm_head arr⟩⟩
  · exact List.cons_ne_nil _ _
  · exact List.cons_ne_nil _ _
  · exact List.cons_ne_nil _ _

/-- Witness for C10 at the non-empty input `[1, 2]`. -/
theorem claim_C10_initial_step_witness :
    ([1, 2] : List Int) ≠ [] ∧
    (((QuickSort.sort_algorithm [1, 2]).1 ≠ [] ∧
      (QuickSort.sort_algorithm [1, 2]).1.head?.map QuickSort.QStep.array
        = some [1, 2]) ∧
    ((MergeSort.sort_algorithm [1, 2]).1 ≠ [] ∧
      (MergeSort.sort_algorithm [1, 2]).1.head?.map MergeSort.MStep.array
        = some [1, 2]) ∧
    ((SelectionSort.sort_algorithm [1, 2]).1 ≠ [] ∧
      (SelectionSort.sort_algorithm [1, 2]).1.head?.map SelectionSort.SStep.array
        = some [1, 2])) :=
  ⟨by decide, claim_C10_initial_step [1, 2] (by decide)⟩
